import Mathlib

/-!
Verification of the GitHubSyncMate synchronization engine (src/main.ts).

The TypeScript source is shallowly embedded below: pure helpers
(mergeContent, shouldSyncFile, path mapping, base64 transport) become Lean
functions on `String` / `List`; the stateful sync engine (metadata store,
pending queues, grace caches, the orchestrator phases) becomes explicit
state passing over association lists keyed by file path, mirroring the
insertion-ordered Maps and Sets of the source.  Remote interaction is
modelled two ways: an explicit failure/response environment for the retry
protocols (makeGitHubRequest, deleteFileFromGitHub), and a reliable
deterministic remote store for whole-run properties, where a GET returns
the store content, a PUT writes it, and blob revision ids are produced by
an abstract injective function (git blob ids are content-addressed).
SHA-256 checksums are likewise an abstract injective parameter `hash`.
-/

namespace SyncMate

/-! ### Association-list maps (JS `Map` with insertion order) -/

/-- Lookup in an insertion-ordered association list (JS `Map.get`). -/
def alookup {α : Type} : List (String × α) → String → Option α
  | [], _ => none
  | e :: rest, key => if e.1 = key then some e.2 else alookup rest key

/-- JS `Map.set`: update in place if the key exists, else append. -/
def ainsert {α : Type} (m : List (String × α)) (k : String) (v : α) :
    List (String × α) :=
  if m.any (fun e => e.1 = k) then
    m.map (fun e => if e.1 = k then (k, v) else e)
  else
    m ++ [(k, v)]

/-- JS `Map.delete`. -/
def aerase {α : Type} (m : List (String × α)) (k : String) : List (String × α) :=
  m.filter (fun e => e.1 ≠ k)

/-- JS `Map.has`. -/
def amem {α : Type} (m : List (String × α)) (k : String) : Bool :=
  (alookup m k).isSome

/-- JS `Set.add` preserving insertion order. -/
def sadd (s : List String) (k : String) : List String :=
  if s.contains k then s else s ++ [k]

/-- JS `Set.delete`. -/
def sdel (s : List String) (k : String) : List String :=
  s.filter (fun e => e ≠ k)

/-! ### JS string primitives

Structurally recursive embeddings of the JavaScript string methods used
by the source (`startsWith`, `endsWith`, `split`), so that concrete
instances evaluate inside the kernel. -/

/-- JS `String.prototype.startsWith`. -/
def strStartsWith (s pre : String) : Bool := pre.data.isPrefixOf s.data

/-- JS `String.prototype.endsWith`. -/
def strEndsWith (s suf : String) : Bool := suf.data.reverse.isPrefixOf s.data.reverse

/-- Helper for `splitOnChar`. -/
def splitOnCharAux (c : Char) : List Char → List Char → List (List Char)
  | [], cur => [cur.reverse]
  | x :: rest, cur =>
    if x = c then cur.reverse :: splitOnCharAux c rest []
    else splitOnCharAux c rest (x :: cur)

/-- JS `String.prototype.split` with a single-character separator. -/
def splitOnChar (c : Char) (s : String) : List String :=
  (splitOnCharAux c s.data []).map (fun l => ⟨l⟩)

/-! ### mergeContent (src/main.ts lines 1026-1047)

The source splits both contents on newline, scans the remote lines for any
line not contained in the local lines (it also accumulates those lines in
a `mergedLines` array that it never reads again), and if such a line
exists returns the whole local content followed by the whole remote
content wrapped in conflict markers; otherwise it returns the local
content unchanged. -/

/-- Embedding of `mergeContent`. -/
def mergeContent (localContent remoteContent : String) : String :=
  let localLines := splitOnChar '\n' localContent
  let remoteLines := splitOnChar '\n' remoteContent
  let hasNewRemoteLines := remoteLines.any (fun l => !(localLines.contains l))
  if hasNewRemoteLines then
    "<<<<<<< local version\n" ++ localContent ++ "\n=======\n" ++
      remoteContent ++ "\n>>>>>>> remote version\n"
  else
    localContent

/-- Modelled from the spec's words for the merge policy (claim C2): lines
unique to the remote version are appended after the local content, wrapped
in conflict markers, only if any such unique line exists.  Used only to
compare against the source's `mergeContent`. -/
def mergeContentSpec (localContent remoteContent : String) : String :=
  let localLines := splitOnChar '\n' localContent
  let remoteLines := splitOnChar '\n' remoteContent
  let uniqueRemote := remoteLines.filter (fun l => !(localLines.contains l))
  if uniqueRemote.isEmpty then
    localContent
  else
    "<<<<<<< local version\n" ++ localContent ++ "\n=======\n" ++
      String.intercalate "\n" uniqueRemote ++ "\n>>>>>>> remote version\n"

/-! ### Path filtering and mapping (src/main.ts lines 1768-1844) -/

/-- Embedding of `isMarkdownFile`. -/
def isMarkdownFile (filename : String) : Bool :=
  strEndsWith filename ".md" || strEndsWith filename ".markdown"

/-- Effect of `replace(/^\x2f|\x2f$/g, '')`: strip one leading and one
trailing slash. -/
def stripSlashes (p : String) : String :=
  let s := if strStartsWith p "/" then p.drop 1 else p
  if strEndsWith s "/" then ⟨s.data.dropLast⟩ else s

/-- Effect of `replace(/^\x2f/, '')`: strip one leading slash. -/
def stripLeadingSlash (p : String) : String :=
  if strStartsWith p "/" then p.drop 1 else p

/-- Embedding of `shouldSyncFile`; `filePath` is `file.path` and
`fileName` is `file.name` (the basename). -/
def shouldSyncFile (syncPath filePath fileName : String) : Bool :=
  let normalizedSyncPath := stripSlashes syncPath
  if normalizedSyncPath = "" then
    isMarkdownFile fileName
  else
    strStartsWith (stripLeadingSlash filePath) (normalizedSyncPath ++ "/") &&
      isMarkdownFile fileName

/-- Embedding of `shouldSyncPath` (note: the source tests
`isMarkdownFile` on the whole path here, not on the basename). -/
def shouldSyncPath (syncPath path : String) : Bool :=
  let normalizedSyncPath := stripSlashes syncPath
  if normalizedSyncPath = "" then
    isMarkdownFile path
  else
    strStartsWith (stripLeadingSlash path) (normalizedSyncPath ++ "/") &&
      isMarkdownFile path

/-- Embedding of `getLocalPath`. -/
def getLocalPath (syncPath remotePath : String) : String :=
  let normalizedSyncPath := stripSlashes syncPath
  let normalizedRemotePath := stripLeadingSlash remotePath
  if normalizedSyncPath = "" then
    normalizedRemotePath
  else if normalizedRemotePath = normalizedSyncPath then
    ""
  else if strStartsWith normalizedRemotePath (normalizedSyncPath ++ "/") then
    normalizedRemotePath.drop (normalizedSyncPath ++ "/").length
  else
    normalizedRemotePath

/-- Embedding of `getRemotePath`. -/
def getRemotePath (syncPath localPath : String) : String :=
  let normalizedLocalPath := stripLeadingSlash localPath
  let normalizedSyncPath := stripSlashes syncPath
  if normalizedSyncPath = "" then
    normalizedLocalPath
  else if normalizedLocalPath = "" then
    normalizedSyncPath
  else
    normalizedSyncPath ++ "/" ++ normalizedLocalPath

/-! ### Base64 transport (src/main.ts lines 1847-1896)

`encodeBase64` turns the UTF-8 bytes of a string into a binary string and
applies `btoa`; `decodeBase64` strips characters outside the base64
alphabet, pads with `=` to a multiple of four, applies `atob` and decodes
the bytes as UTF-8.  `btoa`/`atob` are the platform's standard base64
codec and are modelled by their specification; strings are represented by
their UTF-8 byte sequences (`TextEncoder`/`TextDecoder`). -/

/-- The base64 alphabet in index order. -/
def b64Table : List Char :=
  "ABCDEFGHIJKLMNOPQRSTUVWXYZabcdefghijklmnopqrstuvwxyz0123456789+/".toList

/-- Character for a sextet value. -/
def b64Char (n : Nat) : Char := b64Table.getD n 'A'

/-- Sextet value of an alphabet character. -/
def b64Val (c : Char) : Nat := b64Table.indexOf c

/-- `btoa`: standard base64 encoding of a byte sequence. -/
def btoaBytes : List Nat → List Char
  | [] => []
  | [b0] => [b64Char (b0 / 4), b64Char (b0 % 4 * 16), '=', '=']
  | [b0, b1] =>
    [b64Char (b0 / 4), b64Char (b0 % 4 * 16 + b1 / 16), b64Char (b1 % 16 * 4), '=']
  | b0 :: b1 :: b2 :: rest =>
    b64Char (b0 / 4) :: b64Char (b0 % 4 * 16 + b1 / 16) ::
      b64Char (b1 % 16 * 4 + b2 / 64) :: b64Char (b2 % 64) :: btoaBytes rest

/-- `atob`: standard base64 decoding to a byte sequence. -/
def atobBytes : List Char → List Nat
  | c0 :: c1 :: c2 :: c3 :: rest =>
    if c2 = '=' then
      [b64Val c0 * 4 + b64Val c1 / 16]
    else if c3 = '=' then
      [b64Val c0 * 4 + b64Val c1 / 16, b64Val c1 % 16 * 16 + b64Val c2 / 4]
    else
      (b64Val c0 * 4 + b64Val c1 / 16) ::
        (b64Val c1 % 16 * 16 + b64Val c2 / 4) ::
          (b64Val c2 % 4 * 64 + b64Val c3) :: atobBytes rest
  | _ => []

/-- Characters kept by `replace(/[^A-Za-z0-9+\x2f=]/g, '')`. -/
def b64Allowed (c : Char) : Bool := b64Table.contains c || c = '='

/-- The `while (length % 4 !== 0) += '='` padding loop. -/
def padB64 (l : List Char) : List Char :=
  l ++ List.replicate ((4 - l.length % 4) % 4) '='

/-- Embedding of `encodeBase64` on the string's UTF-8 bytes. -/
def encodeBase64 (bytes : List Nat) : List Char := btoaBytes bytes

/-- Embedding of `decodeBase64`: clean, pad, `atob`. -/
def decodeBase64 (chars : List Char) : List Nat :=
  atobBytes (padB64 (chars.filter b64Allowed))

/-- UTF-8 byte sequence of a string (`TextEncoder`). -/
def utf8Bytes (s : String) : List Nat := s.toUTF8.toList.map UInt8.toNat

/-! ### Remote client retry protocol (src/main.ts lines 1700-1765)

`makeGitHubRequest` is embedded over an explicit environment assigning to
every attempt number (1-based) either a response or a failure.  Failures
are either network-transport errors (whose message may or may not match
the source's two retryable patterns) or an HTTP status error. -/

/-- A failure of one request attempt.  `network b` is a transport failure
whose message matches `net::ERR_TIMED_OUT` / `Failed to fetch` iff `b`;
`maxRetries` is the source's final `Max retries reached` error. -/
inductive ReqError where
  | network (retryableMessage : Bool)
  | http (status : Nat)
  | maxRetries
deriving DecidableEq

/-- The source's retryability test: matching network message, or status
in 500/502/503/504/409. -/
def isRetryableError : ReqError → Bool
  | .network m => m
  | .http s => s = 500 || s = 502 || s = 503 || s = 504 || s = 409
  | .maxRetries => false

/-- Observable outcome of one `makeGitHubRequest` call: the returned or
thrown value, how many attempts were made, and the backoff delays slept
between attempts (milliseconds, exact rationals). -/
structure ReqOutcome (α : Type) where
  result : Except ReqError α
  attemptsUsed : Nat
  delays : List ℚ

/-- The `while (attempts < retries)` loop of `makeGitHubRequest`.  The
`fuel` argument only makes the recursion structural; starting from
`fuel = retries` it never runs out before the `attempts < retries` guard
stops the loop. -/
def requestLoop {α : Type} (env : Nat → Except ReqError α) (retries : Nat) :
    Nat → Nat → ℚ → List ℚ → ReqOutcome α
  | fuel + 1, attempts, delay, delays =>
    if attempts < retries then
      match env (attempts + 1) with
      | .ok v => ⟨.ok v, attempts + 1, delays⟩
      | .error e =>
        if attempts + 1 < retries && isRetryableError e then
          requestLoop env retries fuel (attempts + 1) (delay * (3 / 2))
            (delays ++ [delay])
        else
          ⟨.error e, attempts + 1, delays⟩
    else
      ⟨.error .maxRetries, attempts, delays⟩
  | 0, attempts, _, delays => ⟨.error .maxRetries, attempts, delays⟩

/-- Embedding of `makeGitHubRequest` (the source's defaults are
`retries = 3`, `delay = 1000`). -/
def makeGitHubRequest {α : Type} (env : Nat → Except ReqError α) (retries : Nat)
    (delay : ℚ) : ReqOutcome α :=
  requestLoop env retries retries 0 delay []

/-! ### Delete protocol (src/main.ts lines 1247-1313)

`deleteFileFromGitHub` is embedded over an environment giving, per
attempt index (0-based), the result of the revision-id pre-fetch and the
result of a delete request for a given revision id.  Errors carry the
HTTP status.  The trace of delete calls actually submitted is recorded so
that the freshness of the revision id used can be stated. -/

/-- Remote behaviour seen by one `deleteFileFromGitHub` call. -/
structure DeleteEnv where
  fetch : Nat → Except Nat (Option String)
  del : Nat → String → Except Nat Unit

/-- Outcome of the delete protocol.  `success recorded` states whether
the path was recorded in the recently-deleted cache; `failure s` is a
propagated error of status `s`. -/
inductive DeleteResult where
  | success (recorded : Bool)
  | failure (status : Nat)
deriving DecidableEq

/-- The `for (let i = 0; i < maxRetries; i++)` loop of
`deleteFileFromGitHub`, also returning the trace of (attempt, revision
id) delete submissions.  `fuel` only makes the recursion structural;
starting from `fuel = maxRetries` the `i < maxRetries` guard always stops
the loop first, and both exits model the loop falling through (the
source then returns without recording). -/
def deleteLoop (env : DeleteEnv) (maxRetries : Nat) :
    Nat → Nat → List (Nat × String) → DeleteResult × List (Nat × String)
  | fuel + 1, i, calls =>
    if i < maxRetries then
      match env.fetch i with
      | .error s =>
        if s = 404 then (.success true, calls)
        else if i < maxRetries - 1 then deleteLoop env maxRetries fuel (i + 1) calls
        else (.failure s, calls)
      | .ok none => (.success true, calls)
      | .ok (some sha) =>
        let calls' := calls ++ [(i, sha)]
        match env.del i sha with
        | .ok _ => (.success true, calls')
        | .error s =>
          if s = 409 ∧ i < maxRetries - 1 then
            deleteLoop env maxRetries fuel (i + 1) calls'
          else if s = 404 then (.success true, calls')
          else (.failure s, calls')
    else
      (.success false, calls)
  | 0, _, calls => (.success false, calls)

/-- Embedding of `deleteFileFromGitHub`; `initialFileSha` is the caller's
cached revision id, which the source accepts but never uses. -/
def deleteFileFromGitHub (initialFileSha : String) (env : DeleteEnv)
    (maxRetries : Nat) : DeleteResult × List (Nat × String) :=
  deleteLoop env maxRetries maxRetries 0 []

/-! ### Run guard (src/main.ts lines 666-798)

`syncWithGitHub` is embedded with its phase body abstracted: the body
receives the engine's core state and either completes with operation
counts or raises.  The guard logic, the `finally` persistence and the
outcome reporting are the embedded part. -/

/-- Operation counts reported by a run. -/
structure Counts where
  pushedCount : Nat
  pulledCount : Nat
  deletedLocallyCount : Nat
  deletedRemotelyCount : Nat
deriving DecidableEq

/-- Report of one `syncWithGitHub` invocation. -/
inductive RunOutcome where
  | refused
  | completed (c : Counts)
  | failed
deriving DecidableEq

/-- Engine state around a run: the in-flight guard, the abstract core
state mutated by the phases, and how many times the `finally` persistence
has executed. -/
structure EngineState (σ : Type) where
  inProgress : Bool
  core : σ
  finalSaves : Nat

/-- Embedding of `syncWithGitHub`: refuse when settings are invalid or a
run is in flight; otherwise run the phases with the guard held and, on
both the success and the exception path, release the guard and persist. -/
def syncWithGitHub {σ ε : Type} (validSettings : Bool)
    (phases : σ → σ × Except ε Counts) (s : EngineState σ) :
    EngineState σ × RunOutcome :=
  if !validSettings || s.inProgress then (s, .refused)
  else
    let r := phases s.core
    ({ inProgress := false, core := r.1, finalSaves := s.finalSaves + 1 },
      match r.2 with
      | .ok c => .completed c
      | .error _ => .failed)

/-! ### Metadata model (src/main.ts lines 82-114)

`lastModified` timestamps are carried but set to `0`: no synchronization
decision in the source reads them. -/

/-- Embedding of `FileMetadata`. -/
structure FileMetadata where
  path : String
  githubBlobSha : String
  lastModified : Nat
  localChecksum : String
  remoteContentChecksum : String
  conflicted : Bool
deriving DecidableEq

/-- One entry of `getLocalFileStates` (content, checksum; the `TFile`
handle and mtime are represented by the path key). -/
structure LocalFileState where
  content : String
  checksum : String
deriving DecidableEq

/-- One entry of the remote tree listing: the remote repository path and
the blob revision id. -/
structure RemoteFileInfo where
  path : String
  sha : String
deriving DecidableEq

/-- Grace windows (src/main.ts lines 113-114). -/
def RECENTLY_PUSHED_GRACE_PERIOD_MS : Nat := 90 * 1000

/-- Grace window for remote deletions (120 seconds). -/
def RECENTLY_DELETED_GRACE_PERIOD_MS : Nat := 120 * 1000

/-- Live sync state (the engine-owned part of `SyncState`; the
active-file fields are absent because runs are modelled with no document
open for editing). -/
structure SyncStateM where
  pendingFiles : List String
  fileMetadata : List (String × FileMetadata)
  pendingDeletions : List (String × String)
  recentlyPushed : List (String × Nat)
  recentlyDeleted : List (String × Nat)
deriving DecidableEq

/-- The two external stores plus the engine state.  The remote store maps
remote repository paths to contents; blob revision ids are
content-addressed through the abstract `ghHash`. -/
structure World where
  localStore : List (String × String)
  remoteStore : List (String × String)
  sync : SyncStateM
deriving DecidableEq

/-- The conflict-resolution choices of the source (`'local' | 'remote' |
'merge'`). -/
inductive ConflictChoice where
  | localKeep
  | remoteKeep
  | merge
deriving DecidableEq

/-- The persisted `conflictResolution` setting, including `'ask'`. -/
inductive ResolutionSetting where
  | keepLocal
  | keepRemote
  | tryMerge
  | ask
deriving DecidableEq

/-- Resolution decision for a manual/auto run: the configured policy, or
the human modal answer (`askChoice`) when the setting is `'ask'`
(src/main.ts lines 940-955; the real-time branch is unreachable because
`realtimeSync`/`syncOnSave` are hard-coded to false on load). -/
def effectiveResolution (setting : ResolutionSetting)
    (askChoice : String → ConflictChoice) (p : String) : ConflictChoice :=
  match setting with
  | .keepLocal => .localKeep
  | .keepRemote => .remoteKeep
  | .tryMerge => .merge
  | .ask => askChoice p

/-! ### Remote tree state with grace handling (src/main.ts lines 1505-1605) -/

/-- Basename of a path (the `item.name` / `file.name` field). -/
def basename (p : String) : String := (splitOnChar '/' p).getLastD p

/-- Whether the recursive directory walk of `getRemoteFileStates` /
`processRemoteDirectory` lists a remote file: a Markdown basename inside
the configured sync sub-path (everything, at the repository root). -/
def remoteItemListed (syncPath remotePath : String) : Bool :=
  let nsp := stripSlashes syncPath
  isMarkdownFile (basename remotePath) &&
    (nsp = "" || strStartsWith remotePath (nsp ++ "/"))

/-- The raw API listing, keyed by local path as the source keys its map. -/
def remoteListing (ghHash : String → String) (syncPath : String)
    (remoteStore : List (String × String)) : List (String × RemoteFileInfo) :=
  (remoteStore.filter (fun e => remoteItemListed syncPath e.1)).map
    (fun e => (getLocalPath syncPath e.1, { path := e.1, sha := ghHash e.2 }))

/-- Whether a path sits in the recently-pushed cache within its window. -/
def recentlyPushedWithin (now : Nat) (recentlyPushed : List (String × Nat))
    (p : String) : Bool :=
  match alookup recentlyPushed p with
  | some t => now - t < RECENTLY_PUSHED_GRACE_PERIOD_MS
  | none => false

/-- Per-entry grace adjustment of the listing (src/main.ts lines
1528-1555): drop entries recently deleted by the engine; for entries
recently pushed whose listed revision id lags behind the metadata's,
report the metadata's newer id instead. -/
def graceAdjustEntry (now : Nat) (recentlyDeleted recentlyPushed : List (String × Nat))
    (fileMetadata : List (String × FileMetadata)) (p : String)
    (info : RemoteFileInfo) : Option RemoteFileInfo :=
  let deletedHit :=
    match alookup recentlyDeleted p with
    | some t => decide (now - t < RECENTLY_DELETED_GRACE_PERIOD_MS)
    | none => false
  if deletedHit then none
  else
    match alookup recentlyPushed p, alookup fileMetadata p with
    | some t, some m =>
      if now - t < RECENTLY_PUSHED_GRACE_PERIOD_MS ∧ m.githubBlobSha ≠ "" ∧
          m.githubBlobSha ≠ info.sha then
        some { info with sha := m.githubBlobSha }
      else some info
    | _, _ => some info

/-- The filtered and augmented remote states map. -/
def graceFilterAugment (now : Nat) (recentlyDeleted recentlyPushed : List (String × Nat))
    (fileMetadata : List (String × FileMetadata))
    (api : List (String × RemoteFileInfo)) : List (String × RemoteFileInfo) :=
  api.filterMap (fun e =>
    (graceAdjustEntry now recentlyDeleted recentlyPushed fileMetadata e.1 e.2).map
      (fun i => (e.1, i)))

/-- Expiry of a grace cache (the `now - timestamp > window` purges). -/
def purgeCache (now window : Nat) (cache : List (String × Nat)) :
    List (String × Nat) :=
  cache.filter (fun e => !(now - e.2 > window))

/-- Result of `getRemoteFileStates` under a reliable remote: the final
states map plus the purged caches (the source purges them in place). -/
structure RemoteStatesResult where
  states : List (String × RemoteFileInfo)
  recentlyPushed : List (String × Nat)
  recentlyDeleted : List (String × Nat)

/-- Embedding of `getRemoteFileStates` with the listing served from the
remote store. -/
def getRemoteFileStates (ghHash : String → String) (syncPath : String) (now : Nat)
    (remoteStore : List (String × String))
    (recentlyDeleted recentlyPushed : List (String × Nat))
    (fileMetadata : List (String × FileMetadata)) : RemoteStatesResult :=
  { states := graceFilterAugment now recentlyDeleted recentlyPushed fileMetadata
      (remoteListing ghHash syncPath remoteStore)
    recentlyPushed := purgeCache now RECENTLY_PUSHED_GRACE_PERIOD_MS recentlyPushed
    recentlyDeleted := purgeCache now RECENTLY_DELETED_GRACE_PERIOD_MS recentlyDeleted }

/-! ### Local tree state (src/main.ts lines 1481-1502) -/

/-- Embedding of `getLocalFileStates`. -/
def getLocalFileStates (hash : String → String) (syncPath : String)
    (localStore : List (String × String)) : List (String × LocalFileState) :=
  (localStore.filter (fun e => shouldSyncFile syncPath e.1 (basename e.1))).map
    (fun e => (e.1, { content := e.2, checksum := hash e.2 }))

/-! ### Conflict detection (src/main.ts lines 800-923) -/

/-- A detected conflict as handed to the resolver: the snapshot local
content, the fetched current remote content, and the listed revision id
(`conflict.local.content`, `conflict.remote.content`,
`conflict.remote.sha`). -/
structure ConflictInfo where
  localContent : String
  remoteContent : String
  remoteSha : String
deriving DecidableEq

/-- Mutable state threaded through the detection loop. -/
structure DetectAcc where
  pendingFiles : List String
  fileMetadata : List (String × FileMetadata)
  conflicts : List (String × ConflictInfo)
deriving DecidableEq

/-- One iteration of the detection loop over a local file (src/main.ts
lines 818-912), with remote content fetches served from the remote
store. -/
def detectStep (hash : String → String) (remoteStore : List (String × String))
    (remoteStates : List (String × RemoteFileInfo))
    (pendingDeletions : List (String × String)) (acc : DetectAcc)
    (entry : String × LocalFileState) : DetectAcc :=
  let p := entry.1
  let lf := entry.2
  match alookup remoteStates p with
  | none =>
    if !(amem pendingDeletions p) &&
        (match alookup acc.fileMetadata p with
         | none => true
         | some m => m.githubBlobSha = "") then
      { acc with pendingFiles := sadd acc.pendingFiles p }
    else acc
  | some re =>
    let remoteContent := (alookup remoteStore re.path).getD ""
    match alookup acc.fileMetadata p with
    | none =>
      let newMeta : FileMetadata :=
        { path := p, githubBlobSha := re.sha, lastModified := 0,
          localChecksum := lf.checksum,
          remoteContentChecksum := hash remoteContent, conflicted := false }
      let fm := ainsert acc.fileMetadata p newMeta
      if lf.checksum = hash remoteContent then
        { acc with fileMetadata := fm, pendingFiles := sdel acc.pendingFiles p }
      else
        { acc with fileMetadata := fm, pendingFiles := sadd acc.pendingFiles p }
    | some m =>
      if lf.checksum ≠ m.remoteContentChecksum ∧ re.sha ≠ m.githubBlobSha then
        { acc with
          pendingFiles := sadd acc.pendingFiles p
          conflicts := acc.conflicts ++ [(p, ⟨lf.content, remoteContent, re.sha⟩)] }
      else if lf.checksum ≠ m.remoteContentChecksum then
        { acc with pendingFiles := sadd acc.pendingFiles p }
      else
        { acc with pendingFiles := sdel acc.pendingFiles p }

/-- Embedding of `detectConflicts` with remote state available. -/
def detectConflicts (hash : String → String)
    (remoteStore : List (String × String))
    (remoteStates : List (String × RemoteFileInfo))
    (pendingDeletions : List (String × String))
    (localFiles : List (String × LocalFileState))
    (pendingFiles : List String) (fileMetadata : List (String × FileMetadata)) :
    DetectAcc :=
  localFiles.foldl (detectStep hash remoteStore remoteStates pendingDeletions)
    ⟨pendingFiles, fileMetadata, []⟩

/-! ### Conflict resolution (src/main.ts lines 925-1023) -/

/-- Embedding of `applyConflictResolution` for one conflicted path. -/
def applyConflictResolution (hash : String → String) (syncPath : String)
    (w : World) (p : String) (c : ConflictInfo) (choice : ConflictChoice) :
    World :=
  match choice with
  | .localKeep =>
    { w with sync := { w.sync with pendingFiles := sadd w.sync.pendingFiles p } }
  | .remoteKeep =>
    match alookup w.localStore p with
    | some _ =>
      let checksum := hash c.remoteContent
      let fm :=
        match alookup w.sync.fileMetadata p with
        | some m =>
          ainsert w.sync.fileMetadata p
            { m with
              localChecksum := checksum
              remoteContentChecksum := checksum
              githubBlobSha := c.remoteSha }
        | none => w.sync.fileMetadata
      { w with
        localStore := ainsert w.localStore p c.remoteContent
        sync := { w.sync with
          fileMetadata := fm
          pendingFiles := sdel w.sync.pendingFiles p } }
    | none =>
      let lp := getLocalPath syncPath p
      let checksum := hash c.remoteContent
      let newMeta : FileMetadata :=
        { path := lp, githubBlobSha := c.remoteSha, localChecksum := checksum,
          remoteContentChecksum := checksum, lastModified := 0, conflicted := false }
      { w with
        localStore := ainsert w.localStore lp c.remoteContent
        sync := { w.sync with
          fileMetadata := ainsert w.sync.fileMetadata lp newMeta } }
  | .merge =>
    let merged := mergeContent c.localContent c.remoteContent
    match alookup w.localStore p with
    | some _ =>
      { w with
        localStore := ainsert w.localStore p merged
        sync := { w.sync with pendingFiles := sadd w.sync.pendingFiles p } }
    | none => w

/-- Embedding of `resolveConflicts` for a manual/auto run. -/
def resolveConflicts (hash : String → String) (syncPath : String)
    (resolveChoice : String → ConflictChoice) (w : World)
    (conflicts : List (String × ConflictInfo)) : World :=
  conflicts.foldl
    (fun w e => applyConflictResolution hash syncPath w e.1 e.2 (resolveChoice e.1)) w

/-! ### Push protocol under a reliable remote (src/main.ts lines 1929-2089)

A GET returns the remote store's current content, a PUT stores the
content and returns its content-addressed revision id, so the retry loop
finishes on its first attempt (the 409 paths are settled separately over
the failure environment). -/

/-- Outcome of one successful `uploadFile` call. -/
structure UploadOutcome where
  world : World
  pushedContent : String
  newSha : String

/-- Embedding of `uploadFile`: fetch the current remote revision and
content; when the remote exists with different content this is a
push-time conflict, resolved by the setting (or the modal when asked) and
possibly rewriting the local file; then PUT the resolved content and
record the fresh revision id and the pushed content's checksum in both
hash fields of the metadata. -/
def uploadFile (hash ghHash : String → String) (syncPath : String)
    (setting : ResolutionSetting) (askPush : String → ConflictChoice)
    (w : World) (filePath : String) : UploadOutcome :=
  let localContent := (alookup w.localStore filePath).getD ""
  let remotePath := getRemotePath syncPath filePath
  let m0 :=
    match alookup w.sync.fileMetadata filePath with
    | some m => m
    | none =>
      { path := filePath, githubBlobSha := "", lastModified := 0,
        localChecksum := hash localContent, remoteContentChecksum := "",
        conflicted := false }
  let resolved : String × List (String × String) :=
    match alookup w.remoteStore remotePath with
    | none => (localContent, w.localStore)
    | some remoteContent =>
      if localContent = remoteContent then (localContent, w.localStore)
      else
        match effectiveResolution setting askPush filePath with
        | .localKeep => (localContent, w.localStore)
        | .remoteKeep => (remoteContent, ainsert w.localStore filePath remoteContent)
        | .merge =>
          let merged := mergeContent localContent remoteContent
          (merged, ainsert w.localStore filePath merged)
  let contentToPush := resolved.1
  let newSha := ghHash contentToPush
  let m :=
    { m0 with
      githubBlobSha := newSha
      localChecksum := hash contentToPush
      remoteContentChecksum := hash contentToPush
      conflicted := false }
  { world :=
      { w with
        localStore := resolved.2
        remoteStore := ainsert w.remoteStore remotePath contentToPush
        sync := { w.sync with
          fileMetadata := ainsert w.sync.fileMetadata filePath m } },
    pushedContent := contentToPush, newSha := newSha }

/-! ### Pull (src/main.ts lines 1316-1374) -/

/-- Embedding of `downloadFile` under a reliable remote: write the
current remote content locally and refresh the metadata with the listed
revision id and the content's checksum in both hash fields. -/
def downloadFile (hash : String → String) (syncPath : String) (w : World)
    (info : RemoteFileInfo) : World :=
  let remoteContent := (alookup w.remoteStore info.path).getD ""
  let lp := getLocalPath syncPath info.path
  let checksum := hash remoteContent
  let m0 :=
    match alookup w.sync.fileMetadata lp with
    | some m => m
    | none =>
      { path := lp, githubBlobSha := "", lastModified := 0, localChecksum := "",
        remoteContentChecksum := "", conflicted := false }
  let m :=
    { m0 with
      githubBlobSha := info.sha
      remoteContentChecksum := checksum
      localChecksum := checksum }
  { w with
    localStore := ainsert w.localStore lp remoteContent
    sync := { w.sync with
      fileMetadata := ainsert w.sync.fileMetadata lp m
      pendingFiles := sdel w.sync.pendingFiles lp } }

/-! ### Remote deletion phase (src/main.ts lines 1225-1313) -/

/-- Embedding of `processPendingDeletions` under a reliable remote: every
`deleteFileFromGitHub` call succeeds on its first attempt (present ⇒
delete with the freshly fetched id; absent ⇒ 404 treated as success), the
path is recorded in the recently-deleted cache either way, and the entry
leaves the pending map. -/
def processPendingDeletions (syncPath : String) (now : Nat) (w : World) :
    World × Nat :=
  let deletions := w.sync.pendingDeletions
  let remote' :=
    deletions.foldl (fun rs e => aerase rs (getRemotePath syncPath e.1)) w.remoteStore
  let recentlyDeleted' :=
    deletions.foldl (fun rd e => ainsert rd e.1 now) w.sync.recentlyDeleted
  ({ w with
      remoteStore := remote'
      sync := { w.sync with
        pendingDeletions := []
        recentlyDeleted := recentlyDeleted' } },
    deletions.length)

/-! ### performSync (src/main.ts lines 1050-1223) -/

/-- The delete-local test of the sync phase (src/main.ts lines
1155-1172): remotely missing, previously tracked remotely, and not inside
the push grace window. -/
def deleteLocalCandidate (now : Nat)
    (remoteStates : List (String × RemoteFileInfo))
    (fileMetadata : List (String × FileMetadata))
    (recentlyPushed : List (String × Nat)) (p : String) : Bool :=
  (alookup remoteStates p).isNone &&
    (match alookup fileMetadata p with
     | some m => m.githubBlobSha != ""
     | none => false) &&
    !(recentlyPushedWithin now recentlyPushed p)

/-- Result of the core sync phase, with the operation queues kept
observable (the counts are their lengths, every queued operation
succeeding under the reliable remote). -/
structure SyncOps where
  world : World
  pushedPaths : List String
  pulledRemote : List RemoteFileInfo
  deletedPaths : List String
  pushedCount : Nat
  pulledCount : Nat
  deletedLocallyCount : Nat

/-- Embedding of `performSync` with no actively open document and
`realtimeSync` hard-coded false: queue the still-existing pending files
and push them; re-fetch the remote states; decide pulls (new remote
files not pending deletion; tracked files whose revision changed and are
not queued for push unless the policy is keep-remote) and local deletions
(`deleteLocalCandidate`); execute deletions, then pulls; expire the grace
caches. -/
def performSync (hash ghHash : String → String) (syncPath : String) (now : Nat)
    (setting : ResolutionSetting) (askPush : String → ConflictChoice)
    (localFiles : List (String × LocalFileState)) (w : World) : SyncOps :=
  let filesToPush := w.sync.pendingFiles.filter (fun p => amem localFiles p)
  let w1 := { w with sync := { w.sync with
      pendingFiles := w.sync.pendingFiles.filter (fun p => amem localFiles p) } }
  let pushRes := filesToPush.foldl
    (fun (acc : World × Nat) p =>
      let u := uploadFile hash ghHash syncPath setting askPush acc.1 p
      ({ u.world with sync := { u.world.sync with
            pendingFiles := sdel u.world.sync.pendingFiles p,
            recentlyPushed := ainsert u.world.sync.recentlyPushed p now } },
        acc.2 + 1))
    (w1, 0)
  let w2 := pushRes.1
  let rs := getRemoteFileStates ghHash syncPath now w2.remoteStore
    w2.sync.recentlyDeleted w2.sync.recentlyPushed w2.sync.fileMetadata
  let w3 :=
    { w2 with
      sync := { w2.sync with
        recentlyPushed := rs.recentlyPushed
        recentlyDeleted := rs.recentlyDeleted } }
  let remoteStates := rs.states
  let filesToPull := remoteStates.filter (fun e =>
    match alookup localFiles e.1 with
    | none => !(amem w3.sync.pendingDeletions e.1)
    | some _ =>
      match alookup w3.sync.fileMetadata e.1 with
      | some m =>
        e.2.sha != m.githubBlobSha &&
          (!(filesToPush.contains e.1) || setting == ResolutionSetting.keepRemote)
      | none => false)
  let filesToDeleteLocally := localFiles.filter (fun e =>
    deleteLocalCandidate now remoteStates w3.sync.fileMetadata
      w3.sync.recentlyPushed e.1)
  let w4 := filesToDeleteLocally.foldl
    (fun w e =>
      { w with
        localStore := aerase w.localStore e.1
        sync := { w.sync with fileMetadata := aerase w.sync.fileMetadata e.1 } })
    w3
  let w5 := filesToPull.foldl (fun w e => downloadFile hash syncPath w e.2) w4
  let w6 :=
    { w5 with
      sync := { w5.sync with
        recentlyPushed := purgeCache now RECENTLY_PUSHED_GRACE_PERIOD_MS
          w5.sync.recentlyPushed
        recentlyDeleted := purgeCache now RECENTLY_DELETED_GRACE_PERIOD_MS
          w5.sync.recentlyDeleted } }
  ⟨w6, filesToPush, filesToPull.map (·.2), filesToDeleteLocally.map (·.1),
    pushRes.2, filesToPull.length, filesToDeleteLocally.length⟩

/-! ### One whole synchronization run (phases of src/main.ts lines 690-798) -/

/-- One complete, successful run of the orchestrator phases under a
reliable remote: snapshot local states, process pending remote deletions,
fetch remote states, detect and resolve conflicts, then the core push /
re-fetch / pull / delete phase.  Returns the new world and the reported
counts. -/
def syncRun (hash ghHash : String → String) (syncPath : String) (now : Nat)
    (setting : ResolutionSetting) (askDetect askPush : String → ConflictChoice)
    (w : World) : World × Counts :=
  let localFiles := getLocalFileStates hash syncPath w.localStore
  let pd := processPendingDeletions syncPath now w
  let w1 := pd.1
  let rs1 := getRemoteFileStates ghHash syncPath now w1.remoteStore
    w1.sync.recentlyDeleted w1.sync.recentlyPushed w1.sync.fileMetadata
  let w2 :=
    { w1 with
      sync := { w1.sync with
        recentlyPushed := rs1.recentlyPushed
        recentlyDeleted := rs1.recentlyDeleted } }
  let det := detectConflicts hash w2.remoteStore rs1.states
    w2.sync.pendingDeletions localFiles w2.sync.pendingFiles w2.sync.fileMetadata
  let w3 :=
    { w2 with
      sync := { w2.sync with
        pendingFiles := det.pendingFiles
        fileMetadata := det.fileMetadata } }
  let w4 := resolveConflicts hash syncPath (effectiveResolution setting askDetect)
    w3 det.conflicts
  let ops := performSync hash ghHash syncPath now setting askPush localFiles w4
  (ops.world,
    ⟨ops.pushedCount, ops.pulledCount, ops.deletedLocallyCount, pd.2⟩)

/-! ### Settled states

The state a fully successful run is meant to leave behind: no queued
work, every listed remote file tracked locally with metadata matching
both the listed revision id and the local content's checksum, and every
tracked local file absent from the listing still remotely associated and
inside the push grace window.  Used to show that such a state is a fixed
point of the orchestrator (zero operations). -/

/-- A settled world. -/
def Settled (hash ghHash : String → String) (syncPath : String) (now : Nat)
    (w : World) : Prop :=
  w.sync.pendingDeletions = [] ∧
  w.sync.pendingFiles = [] ∧
  (∀ pr ∈ graceFilterAugment now w.sync.recentlyDeleted w.sync.recentlyPushed
      w.sync.fileMetadata (remoteListing ghHash syncPath w.remoteStore),
    ∃ c m, alookup w.localStore pr.1 = some c ∧
      shouldSyncFile syncPath pr.1 (basename pr.1) = true ∧
      alookup w.sync.fileMetadata pr.1 = some m ∧
      pr.2.sha = m.githubBlobSha ∧ hash c = m.remoteContentChecksum) ∧
  (∀ p c, alookup w.localStore p = some c →
    shouldSyncFile syncPath p (basename p) = true →
    alookup (graceFilterAugment now w.sync.recentlyDeleted w.sync.recentlyPushed
      w.sync.fileMetadata (remoteListing ghHash syncPath w.remoteStore)) p = none →
    ∃ m, alookup w.sync.fileMetadata p = some m ∧ m.githubBlobSha ≠ "" ∧
      recentlyPushedWithin now w.sync.recentlyPushed p = true)

/-! ## Theorems -/

/-! ### Association-list lemmas -/

theorem alookup_nil {α : Type} (k : String) : alookup ([] : List (String × α)) k = none :=
  rfl

theorem alookup_cons {α : Type} (e : String × α) (rest : List (String × α)) (k : String) :
    alookup (e :: rest) k = if e.1 = k then some e.2 else alookup rest k :=
  rfl

theorem alookup_append {α : Type} (m m' : List (String × α)) (k : String) :
    alookup (m ++ m') k = ((alookup m k).or (alookup m' k)) := by
  induction m with
  | nil => simp [alookup]
  | cons e rest ih =>
    by_cases he : e.1 = k
    · simp [alookup_cons, he]
    · simp [alookup_cons, he, ih]

theorem alookup_replace_self {α : Type} (m : List (String × α)) (k : String) (v : α)
    (h : m.any (fun e => e.1 = k) = true) :
    alookup (m.map (fun e => if e.1 = k then (k, v) else e)) k = some v := by
  induction m with
  | nil => simp at h
  | cons e rest ih =>
    simp only [List.map_cons]
    by_cases he : e.1 = k
    · rw [if_pos he, alookup_cons]
      simp
    · rw [if_neg he, alookup_cons, if_neg he]
      apply ih
      simpa [he] using h

theorem alookup_replace_ne {α : Type} (m : List (String × α)) (k k' : String) (v : α)
    (h : k' ≠ k) :
    alookup (m.map (fun e => if e.1 = k then (k, v) else e)) k' = alookup m k' := by
  induction m with
  | nil => simp
  | cons e rest ih =>
    simp only [List.map_cons]
    by_cases he : e.1 = k
    · rw [if_pos he, alookup_cons, alookup_cons, if_neg (fun hk => h hk.symm)]
      rw [if_neg (by rw [he]; exact fun hk => h hk.symm)]
      exact ih
    · rw [if_neg he, alookup_cons, alookup_cons]
      by_cases he' : e.1 = k'
      · rw [if_pos he', if_pos he']
      · rw [if_neg he', if_neg he']
        exact ih

theorem alookup_ainsert_self {α : Type} (m : List (String × α)) (k : String) (v : α) :
    alookup (ainsert m k v) k = some v := by
  unfold ainsert
  by_cases h : m.any (fun e => e.1 = k)
  · rw [if_pos h]
    exact alookup_replace_self m k v h
  · rw [if_neg h, alookup_append]
    have : alookup m k = none := by
      induction m with
      | nil => rfl
      | cons e rest ih =>
        simp only [List.any_cons, Bool.or_eq_true, decide_eq_true_eq] at h
        push_neg at h
        rw [alookup_cons, if_neg h.1]
        exact ih h.2
    simp [this, alookup_cons]

theorem alookup_ainsert_ne {α : Type} (m : List (String × α)) (k k' : String) (v : α)
    (h : k' ≠ k) : alookup (ainsert m k v) k' = alookup m k' := by
  unfold ainsert
  by_cases hm : m.any (fun e => e.1 = k)
  · rw [if_pos hm]
    exact alookup_replace_ne m k k' v h
  · rw [if_neg hm, alookup_append, alookup_cons, alookup_nil]
    rw [if_neg (show ¬k = k' from fun hk => h hk.symm)]
    cases alookup m k' <;> rfl

theorem alookup_aerase_self {α : Type} (m : List (String × α)) (k : String) :
    alookup (aerase m k) k = none := by
  unfold aerase
  induction m with
  | nil => rfl
  | cons e rest ih =>
    rw [List.filter_cons]
    by_cases he : e.1 = k
    · simpa [he] using ih
    · simpa [he, alookup_cons] using ih

theorem alookup_aerase_ne {α : Type} (m : List (String × α)) (k k' : String)
    (h : k' ≠ k) : alookup (aerase m k) k' = alookup m k' := by
  unfold aerase
  induction m with
  | nil => rfl
  | cons e rest ih =>
    rw [List.filter_cons]
    by_cases he : e.1 = k
    · have hek' : ¬e.1 = k' := by rw [he]; exact fun hk => h hk.symm
      rw [alookup_cons, if_neg hek']
      simpa [he] using ih
    · by_cases he' : e.1 = k'
      · simp [he, he', alookup_cons, h]
      · simpa [he, he', alookup_cons] using ih

/-! ### C2 — merge policy -/

/-- C2 (counterexample): the source's merge does not append only the
remote lines absent from the local version; at local `"a"` and remote
`"a\nb"` it wraps the whole remote content (repeating the shared line
`"a"`), differing from the spec's described merge. -/
theorem mergeContent_ne_spec_merge :
    mergeContent "a" "a\nb" ≠ mergeContentSpec "a" "a\nb" := by
  decide

/-- C2 (amended): if every remote line occurs among the local lines the
merge returns the local content unchanged; otherwise it returns the whole
local content followed by the whole remote content wrapped in conflict
markers (so the output contains the markers and every local and remote
line, in particular the local-only and remote-only lines). -/
theorem mergeContent_behavior (lc rc : String) :
    (((splitOnChar '\n' rc).all (fun l => (splitOnChar '\n' lc).contains l)) = true →
      mergeContent lc rc = lc) ∧
    (((splitOnChar '\n' rc).any (fun l => !((splitOnChar '\n' lc).contains l))) = true →
      mergeContent lc rc =
        "<<<<<<< local version\n" ++ lc ++ "\n=======\n" ++ rc ++
          "\n>>>>>>> remote version\n") := by
  constructor
  · intro h
    cases hany : ((splitOnChar '\n' rc).any (fun l => !((splitOnChar '\n' lc).contains l))) with
    | false =>
      simp only [mergeContent]
      rw [hany]
      rfl
    | true =>
      exfalso
      rw [List.any_eq_true] at hany
      obtain ⟨l, hl, hcon⟩ := hany
      rw [List.all_eq_true] at h
      have hc := h l hl
      simp only [Bool.not_eq_true'] at hcon
      rw [hc] at hcon
      exact Bool.noConfusion hcon
  · intro h
    simp only [mergeContent]
    rw [h]
    rfl

/-- C2 (witness): the amended merge law evaluated at concrete inputs. -/
theorem mergeContent_behavior_witness :
    mergeContent "a" "a" = "a" ∧
    mergeContent "a\nb" "a\nc" =
      "<<<<<<< local version\n" ++ "a\nb" ++ "\n=======\n" ++ "a\nc" ++
        "\n>>>>>>> remote version\n" :=
  ⟨(mergeContent_behavior "a" "a").1 (by decide),
   (mergeContent_behavior "a\nb" "a\nc").2 (by decide)⟩

/-! ### C1 — conflict classification -/

/-- C1: a tracked document present on both sides with metadata, whose
local checksum differs from the cached remote-content checksum and whose
listed revision id differs from the cached blob id, is classified as a
conflict: the current remote content is fetched and both versions are
surfaced in the conflicts map (so the step is not a push-only or
pull-only transition — those leave the conflicts list unchanged). -/
theorem detect_conflict_classification
    (hash : String → String) (remoteStore : List (String × String))
    (remoteStates : List (String × RemoteFileInfo))
    (pendingDeletions : List (String × String)) (acc : DetectAcc)
    (p : String) (lf : LocalFileState) (re : RemoteFileInfo) (rc : String)
    (m : FileMetadata)
    (hre : alookup remoteStates p = some re)
    (hm : alookup acc.fileMetadata p = some m)
    (hrc : alookup remoteStore re.path = some rc)
    (hlocal : lf.checksum ≠ m.remoteContentChecksum)
    (hremote : re.sha ≠ m.githubBlobSha) :
    detectStep hash remoteStore remoteStates pendingDeletions acc (p, lf) =
      { acc with
        pendingFiles := sadd acc.pendingFiles p
        conflicts := acc.conflicts ++ [(p, ⟨lf.content, rc, re.sha⟩)] } ∧
    (detectStep hash remoteStore remoteStates pendingDeletions acc (p, lf)).conflicts ≠
      acc.conflicts := by
  have h1 : detectStep hash remoteStore remoteStates pendingDeletions acc (p, lf) =
      { acc with
        pendingFiles := sadd acc.pendingFiles p
        conflicts := acc.conflicts ++ [(p, ⟨lf.content, rc, re.sha⟩)] } := by
    unfold detectStep
    simp only [hre, hm, hrc, Option.getD_some]
    rw [if_pos ⟨hlocal, hremote⟩]
  refine ⟨h1, ?_⟩
  rw [h1]
  intro hcon
  have := congrArg List.length hcon
  simp at this

/-- C1 (witness): the classification at a concrete conflicted state. -/
theorem detect_conflict_classification_witness :
    detectStep (fun s => s) [("p.md", "RC")] [("p.md", ⟨"p.md", "sha2"⟩)] []
        ⟨[], [("p.md", ⟨"p.md", "sha1", 0, "LC", "RC0", false⟩)], []⟩
        ("p.md", ⟨"L", "LC"⟩) =
      ⟨["p.md"], [("p.md", ⟨"p.md", "sha1", 0, "LC", "RC0", false⟩)],
        [("p.md", ⟨"L", "RC", "sha2"⟩)]⟩ := by
  have h := detect_conflict_classification (fun s => s) [("p.md", "RC")]
    [("p.md", ⟨"p.md", "sha2"⟩)] []
    ⟨[], [("p.md", ⟨"p.md", "sha1", 0, "LC", "RC0", false⟩)], []⟩
    "p.md" ⟨"L", "LC"⟩ ⟨"p.md", "sha2"⟩ "RC" ⟨"p.md", "sha1", 0, "LC", "RC0", false⟩
    (by decide) (by decide) (by decide) (by decide) (by decide)
  exact h.1.trans (by decide)

/-! ### C5 — run guard -/

/-- C5: the guard is mutually exclusive and always released: a request
while a run is in flight is a no-op reporting refusal with the state
untouched; otherwise, whether the phases complete or raise, afterwards
the guard is down, the final persistence has executed, and the run was
not refused. -/
theorem sync_guard_exclusive_released {σ ε : Type} (validSettings : Bool)
    (phases : σ → σ × Except ε Counts) (s : EngineState σ) :
    (s.inProgress = true → syncWithGitHub validSettings phases s = (s, .refused)) ∧
    (validSettings = true → s.inProgress = false →
      (syncWithGitHub validSettings phases s).1.inProgress = false ∧
      (syncWithGitHub validSettings phases s).1.finalSaves = s.finalSaves + 1 ∧
      (syncWithGitHub validSettings phases s).2 ≠ .refused) := by
  constructor
  · intro h
    simp [syncWithGitHub, h]
  · intro hv hp
    simp only [syncWithGitHub, hv, hp, Bool.not_true, Bool.or_false, if_false]
    refine ⟨rfl, rfl, ?_⟩
    cases (phases s.core).2 <;> simp

/-- C5 (witness): the guard behaviour at a concrete engine state. -/
theorem sync_guard_witness :
    syncWithGitHub true
        (fun n : Nat => (n + 1, (Except.ok ⟨1, 0, 0, 0⟩ : Except Unit Counts)))
        ⟨true, 5, 0⟩ =
      (⟨true, 5, 0⟩, .refused) ∧
    (syncWithGitHub true
        (fun n : Nat => (n + 1, (Except.error () : Except Unit Counts)))
        ⟨false, 5, 0⟩).1.inProgress = false ∧
    (syncWithGitHub true
        (fun n : Nat => (n + 1, (Except.error () : Except Unit Counts)))
        ⟨false, 5, 0⟩).1.finalSaves = 1 := by
  refine ⟨(sync_guard_exclusive_released true _ ⟨true, 5, 0⟩).1 rfl, ?_, ?_⟩
  · exact ((sync_guard_exclusive_released true _ ⟨false, 5, 0⟩).2 rfl rfl).1
  · exact ((sync_guard_exclusive_released true _ ⟨false, 5, 0⟩).2 rfl rfl).2.1

/-! ### C8 — push postcondition -/

/-- C8: whenever an upload succeeds (every upload succeeds under the
reliable remote), the metadata afterwards holds the fresh revision id of
the pushed (possibly resolution-transformed) content, both hash fields
equal that content's checksum, and the remote store holds exactly the
pushed content. -/
theorem upload_postcondition (hash ghHash : String → String) (syncPath : String)
    (setting : ResolutionSetting) (askPush : String → ConflictChoice)
    (w : World) (filePath : String) :
    ∃ m, alookup (uploadFile hash ghHash syncPath setting askPush w filePath).world.sync.fileMetadata filePath = some m ∧
      m.githubBlobSha =
        ghHash (uploadFile hash ghHash syncPath setting askPush w filePath).pushedContent ∧
      m.localChecksum =
        hash (uploadFile hash ghHash syncPath setting askPush w filePath).pushedContent ∧
      m.remoteContentChecksum =
        hash (uploadFile hash ghHash syncPath setting askPush w filePath).pushedContent ∧
      (uploadFile hash ghHash syncPath setting askPush w filePath).newSha =
        ghHash (uploadFile hash ghHash syncPath setting askPush w filePath).pushedContent ∧
      alookup (uploadFile hash ghHash syncPath setting askPush w filePath).world.remoteStore
          (getRemotePath syncPath filePath) =
        some (uploadFile hash ghHash syncPath setting askPush w filePath).pushedContent := by
  unfold uploadFile
  exact ⟨_, alookup_ainsert_self _ _ _, rfl, rfl, rfl, rfl, alookup_ainsert_self _ _ _⟩

/-! ### C9 — base64 transport is lossless -/

theorem b64Val_b64Char : ∀ n < 64, b64Val (b64Char n) = n := by decide

theorem b64Char_ne_pad : ∀ n < 64, b64Char n ≠ '=' := by decide

theorem b64Allowed_b64Char : ∀ n < 64, b64Allowed (b64Char n) = true := by decide

theorem btoaBytes_allowed (l : List Nat) (h : ∀ b ∈ l, b < 256) :
    ∀ c ∈ btoaBytes l, b64Allowed c = true := by
  induction l using btoaBytes.induct with
  | case1 => intro c hc; simp [btoaBytes] at hc
  | case2 b0 =>
    intro c hc
    have hb0 := h b0 (by simp)
    simp only [btoaBytes, List.mem_cons, List.mem_singleton] at hc
    rcases hc with rfl | rfl | rfl | rfl | h'
    · exact b64Allowed_b64Char _ (by omega)
    · exact b64Allowed_b64Char _ (by omega)
    · rfl
    · rfl
    · simp at h'
  | case3 b0 b1 =>
    intro c hc
    have hb0 := h b0 (by simp)
    have hb1 := h b1 (by simp)
    simp only [btoaBytes, List.mem_cons, List.mem_singleton] at hc
    rcases hc with rfl | rfl | rfl | rfl | h'
    · exact b64Allowed_b64Char _ (by omega)
    · exact b64Allowed_b64Char _ (by omega)
    · exact b64Allowed_b64Char _ (by omega)
    · rfl
    · simp at h'
  | case4 b0 b1 b2 rest ih =>
    intro c hc
    have hb0 := h b0 (by simp)
    have hb1 := h b1 (by simp)
    have hb2 := h b2 (by simp)
    simp only [btoaBytes, List.mem_cons] at hc
    rcases hc with rfl | rfl | rfl | rfl | h'
    · exact b64Allowed_b64Char _ (by omega)
    · exact b64Allowed_b64Char _ (by omega)
    · exact b64Allowed_b64Char _ (by omega)
    · exact b64Allowed_b64Char _ (by omega)
    · exact ih (fun b hb => h b (by simp [hb])) c h'

theorem btoaBytes_length_mod (l : List Nat) : (btoaBytes l).length % 4 = 0 := by
  induction l using btoaBytes.induct with
  | case1 => rfl
  | case2 b0 => simp [btoaBytes]
  | case3 b0 b1 => simp [btoaBytes]
  | case4 b0 b1 b2 rest ih =>
    simp only [btoaBytes, List.length_cons]
    omega

theorem atobBytes_pad2 (c0 c1 : Char) :
    atobBytes [c0, c1, '=', '='] = [b64Val c0 * 4 + b64Val c1 / 16] := by
  simp [atobBytes]

theorem atobBytes_pad1 (c0 c1 c2 : Char) (h : c2 ≠ '=') :
    atobBytes [c0, c1, c2, '='] =
      [b64Val c0 * 4 + b64Val c1 / 16, b64Val c1 % 16 * 16 + b64Val c2 / 4] := by
  simp [atobBytes, h]

theorem atobBytes_chunk (c0 c1 c2 c3 : Char) (rest : List Char)
    (h2 : c2 ≠ '=') (h3 : c3 ≠ '=') :
    atobBytes (c0 :: c1 :: c2 :: c3 :: rest) =
      (b64Val c0 * 4 + b64Val c1 / 16) ::
        (b64Val c1 % 16 * 16 + b64Val c2 / 4) ::
          (b64Val c2 % 4 * 64 + b64Val c3) :: atobBytes rest := by
  simp [atobBytes, h2, h3]

theorem atob_btoa (l : List Nat) (h : ∀ b ∈ l, b < 256) :
    atobBytes (btoaBytes l) = l := by
  induction l using btoaBytes.induct with
  | case1 => rfl
  | case2 b0 =>
    have hb0 := h b0 (by simp)
    rw [show btoaBytes [b0] = [b64Char (b0 / 4), b64Char (b0 % 4 * 16), '=', '=']
      from by simp [btoaBytes]]
    rw [atobBytes_pad2]
    rw [b64Val_b64Char _ (by omega), b64Val_b64Char _ (by omega)]
    have hv : b0 / 4 * 4 + b0 % 4 * 16 / 16 = b0 := by omega
    rw [hv]
  | case3 b0 b1 =>
    have hb0 := h b0 (by simp)
    have hb1 := h b1 (by simp)
    rw [show btoaBytes [b0, b1] =
        [b64Char (b0 / 4), b64Char (b0 % 4 * 16 + b1 / 16), b64Char (b1 % 16 * 4), '=']
      from by simp [btoaBytes]]
    rw [atobBytes_pad1 _ _ _ (b64Char_ne_pad _ (by omega))]
    rw [b64Val_b64Char _ (by omega), b64Val_b64Char _ (by omega),
      b64Val_b64Char _ (by omega)]
    have hv0 : b0 / 4 * 4 + (b0 % 4 * 16 + b1 / 16) / 16 = b0 := by omega
    have hv1 : (b0 % 4 * 16 + b1 / 16) % 16 * 16 + b1 % 16 * 4 / 4 = b1 := by omega
    rw [hv0, hv1]
  | case4 b0 b1 b2 rest ih =>
    have hb0 := h b0 (by simp)
    have hb1 := h b1 (by simp)
    have hb2 := h b2 (by simp)
    rw [show btoaBytes (b0 :: b1 :: b2 :: rest) =
        b64Char (b0 / 4) :: b64Char (b0 % 4 * 16 + b1 / 16) ::
          b64Char (b1 % 16 * 4 + b2 / 64) :: b64Char (b2 % 64) :: btoaBytes rest
      from by simp [btoaBytes]]
    rw [atobBytes_chunk _ _ _ _ _ (b64Char_ne_pad _ (by omega))
      (b64Char_ne_pad _ (by omega))]
    rw [b64Val_b64Char _ (by omega), b64Val_b64Char _ (by omega),
      b64Val_b64Char _ (by omega), b64Val_b64Char _ (by omega)]
    rw [ih (fun b hb => h b (by simp [hb]))]
    have hv0 : b0 / 4 * 4 + (b0 % 4 * 16 + b1 / 16) / 16 = b0 := by omega
    have hv1 : (b0 % 4 * 16 + b1 / 16) % 16 * 16 + (b1 % 16 * 4 + b2 / 64) / 4 = b1 := by
      omega
    have hv2 : (b1 % 16 * 4 + b2 / 64) % 4 * 64 + b2 % 64 = b2 := by omega
    rw [hv0, hv1, hv2]

theorem decode_encode_bytes (l : List Nat) (h : ∀ b ∈ l, b < 256) :
    decodeBase64 (encodeBase64 l) = l := by
  unfold decodeBase64 encodeBase64 padB64
  rw [List.filter_eq_self.mpr (btoaBytes_allowed l h)]
  rw [btoaBytes_length_mod l]
  simp only [Nat.sub_zero, Nat.mod_self, List.replicate_zero, List.append_nil]
  exact atob_btoa l h

/-- C9: base64 transport is lossless — for every string, decoding the
encoding of its UTF-8 byte sequence returns the same byte sequence, so
content round-trips through the remote API's base64 representation
unchanged. -/
theorem base64_roundtrip (s : String) :
    decodeBase64 (encodeBase64 (utf8Bytes s)) = utf8Bytes s := by
  apply decode_encode_bytes
  intro b hb
  unfold utf8Bytes at hb
  obtain ⟨u, _, rfl⟩ := List.mem_map.mp hb
  exact u.val.isLt

/-! ### C4 — remote client retry policy -/

theorem requestLoop_spec {α : Type} (env : Nat → Except ReqError α) (retries : Nat) :
    ∀ fuel attempts delay delays o,
      requestLoop env retries fuel attempts delay delays = o →
      retries - attempts ≤ fuel →
      attempts ≤ retries →
      o.attemptsUsed ≤ retries ∧
      (attempts < retries → attempts < o.attemptsUsed) ∧
      (∀ e, o.result = .error e → e ≠ .maxRetries →
        env o.attemptsUsed = .error e ∧
          (o.attemptsUsed < retries → isRetryableError e = false)) ∧
      (∀ v, o.result = .ok v → env o.attemptsUsed = .ok v) ∧
      (∀ i, attempts < i → i < o.attemptsUsed →
        ∃ e, env i = .error e ∧ isRetryableError e = true) ∧
      o.delays = delays ++
        (List.range (o.attemptsUsed - 1 - attempts)).map
          (fun i => delay * ((3 : ℚ) / 2) ^ i) := by
  intro fuel
  induction fuel with
  | zero =>
    intro attempts delay delays o ho hfuel hle
    simp only [requestLoop] at ho
    subst ho
    dsimp only
    refine ⟨hle, by omega, ?_, ?_, by omega, by simp⟩
    · intro e he hne
      injection he with h
      exact absurd h.symm hne
    · intro v hv
      exact absurd hv (by simp)
  | succ fuel ih =>
    intro attempts delay delays o ho hfuel hle
    simp only [requestLoop] at ho
    by_cases hlt : attempts < retries
    · rw [if_pos hlt] at ho
      cases henv : env (attempts + 1) with
      | ok v =>
        rw [henv] at ho
        subst ho
        dsimp only
        refine ⟨by omega, by omega, ?_, ?_, by omega, by simp⟩
        · intro e he _
          exact absurd he (by simp)
        · intro v' hv'
          injection hv' with h
          rw [← h]
          exact henv
      | error e =>
        rw [henv] at ho
        dsimp only at ho
        by_cases hretry : (attempts + 1 < retries && isRetryableError e) = true
        · rw [if_pos hretry] at ho
          rw [Bool.and_eq_true, decide_eq_true_eq] at hretry
          obtain ⟨hlt2, hre⟩ := hretry
          obtain ⟨i1, i2, i3, i4, i5, i6⟩ :=
            ih (attempts + 1) (delay * (3 / 2)) (delays ++ [delay]) o ho
              (by omega) (by omega)
          have hused : attempts + 1 < o.attemptsUsed := i2 hlt2
          refine ⟨i1, by omega, i3, i4, ?_, ?_⟩
          · intro i hi1 hi2
            rcases Nat.lt_or_ge (attempts + 1) i with h' | h'
            · exact i5 i h' hi2
            · have : i = attempts + 1 := by omega
              subst this
              exact ⟨e, henv, hre⟩
          · rw [i6]
            have hk : o.attemptsUsed - 1 - attempts =
                (o.attemptsUsed - 1 - (attempts + 1)) + 1 := by omega
            rw [hk, List.range_succ_eq_map, List.map_cons, List.map_map]
            rw [List.append_assoc]
            congr 1
            rw [List.singleton_append]
            congr 1
            · rw [pow_zero, mul_one]
            · apply List.map_congr_left
              intro i _
              simp only [Function.comp_apply, pow_succ]
              ring
        · rw [if_neg hretry] at ho
          subst ho
          dsimp only
          rw [Bool.and_eq_true, decide_eq_true_eq] at hretry
          push_neg at hretry
          refine ⟨by omega, by omega, ?_, ?_, by omega, by simp⟩
          · intro e' he' _
            injection he' with h
            rw [← h]
            refine ⟨henv, ?_⟩
            intro hlt2
            cases hb : isRetryableError e with
            | false => rfl
            | true => exact absurd hb (hretry hlt2)
          · intro v hv
            exact absurd hv (by simp)
    · rw [if_neg hlt] at ho
      subst ho
      dsimp only
      refine ⟨hle, by omega, ?_, ?_, by omega, by simp⟩
      · intro e he hne
        injection he with h
        exact absurd h.symm hne
      · intro v hv
        exact absurd hv (by simp)

/-- C4: each remote call makes at most 3 attempts; a thrown error (other
than the synthetic max-retries error) is exactly the failure of the last
attempt made, and if attempts remained it was non-retryable (so
non-retryable failures propagate immediately); every attempt before the
last failed with a retryable error — network-transport failure with a
matching message or HTTP 500/502/503/504/409; and the backoff delays
slept form the sequence 1000 · 1.5ⁱ. -/
theorem request_retry_policy {α : Type} (env : Nat → Except ReqError α) :
    (makeGitHubRequest env 3 1000).attemptsUsed ≤ 3 ∧
    (∀ e, (makeGitHubRequest env 3 1000).result = .error e → e ≠ .maxRetries →
      env (makeGitHubRequest env 3 1000).attemptsUsed = .error e ∧
        ((makeGitHubRequest env 3 1000).attemptsUsed < 3 →
          isRetryableError e = false)) ∧
    (∀ v, (makeGitHubRequest env 3 1000).result = .ok v →
      env (makeGitHubRequest env 3 1000).attemptsUsed = .ok v) ∧
    (∀ i, 0 < i → i < (makeGitHubRequest env 3 1000).attemptsUsed →
      ∃ e, env i = .error e ∧ isRetryableError e = true) ∧
    (makeGitHubRequest env 3 1000).delays =
      (List.range ((makeGitHubRequest env 3 1000).attemptsUsed - 1)).map
        (fun i => 1000 * ((3 : ℚ) / 2) ^ i) := by
  obtain ⟨i1, _, i3, i4, i5, i6⟩ :=
    requestLoop_spec env 3 3 0 1000 [] (makeGitHubRequest env 3 1000) rfl
      (by omega) (by omega)
  exact ⟨i1, i3, i4, i5, by simpa using i6⟩

/-- C4 (witness): two retryable 503 failures then success — three
attempts, delays 1000 then 1500; and a non-retryable 404 failing
immediately on the first attempt. -/
theorem request_retry_policy_witness :
    (makeGitHubRequest
      (fun i => if i < 3 then Except.error (ReqError.http 503) else Except.ok (7 : Nat))
      3 1000).delays = [1000, 1500] ∧
    (∃ e, (fun i => if i < 3 then Except.error (ReqError.http 503) else Except.ok (7 : Nat))
        (1 : Nat) = Except.error e ∧ isRetryableError e = true) ∧
    (makeGitHubRequest
      (fun i => if i = 1 then Except.error (ReqError.http 404) else Except.ok (7 : Nat))
      3 1000).attemptsUsed = 1 ∧
    isRetryableError (ReqError.http 404) = false := by
  refine ⟨?_, ?_, by decide, by decide⟩
  · have ha : (makeGitHubRequest
        (fun i => if i < 3 then Except.error (ReqError.http 503) else Except.ok (7 : Nat))
        3 1000).attemptsUsed = 3 := by decide
    have h := (request_retry_policy
      (fun i => if i < 3 then Except.error (ReqError.http 503) else Except.ok (7 : Nat))).2.2.2.2
    rw [h, ha]
    norm_num [List.range_succ]
  · exact (request_retry_policy
      (fun i => if i < 3 then Except.error (ReqError.http 503) else Except.ok (7 : Nat))).2.2.2.1
      1 (by decide) (by decide)

/-! ### C3 — delete protocol -/

theorem deleteLoop_spec (env : DeleteEnv) (maxRetries : Nat) :
    ∀ fuel i calls res cs,
      deleteLoop env maxRetries fuel i calls = (res, cs) →
      maxRetries - i ≤ fuel →
      i < maxRetries →
      ((∀ pr ∈ calls, env.fetch pr.1 = .ok (some pr.2)) →
        ∀ pr ∈ cs, env.fetch pr.1 = .ok (some pr.2)) ∧
      res ≠ .failure 404 ∧
      (∀ b, res = .success b → b = true) ∧
      cs.length ≤ calls.length + (maxRetries - i) ∧
      ((∀ j s, env.del j s = .error 409) →
        (∀ j, ∃ s, env.fetch j = .ok (some s)) →
        res = .failure 409 ∧ cs.length = calls.length + (maxRetries - i)) := by
  intro fuel
  induction fuel with
  | zero =>
    intro i calls res cs ho hfuel hi
    omega
  | succ fuel ih =>
    intro i calls res cs ho hfuel hi
    simp only [deleteLoop, if_pos hi] at ho
    cases hf : env.fetch i with
    | error s =>
      rw [hf] at ho
      dsimp only at ho
      by_cases h404 : s = 404
      · rw [if_pos h404] at ho
        rw [Prod.mk.injEq] at ho
        obtain ⟨rfl, rfl⟩ := ho
        refine ⟨fun h pr hpr => h pr hpr, by simp, fun b hb => by injection hb with h; exact h.symm, by omega, ?_⟩
        intro _ h2
        obtain ⟨s', hfe⟩ := h2 i
        rw [hf] at hfe
        exact absurd hfe (by simp)
      · rw [if_neg h404] at ho
        by_cases hretry : i < maxRetries - 1
        · rw [if_pos hretry] at ho
          obtain ⟨c1, c2, c3, c4, _⟩ := ih (i + 1) calls res cs ho (by omega) (by omega)
          refine ⟨c1, c2, c3, by omega, ?_⟩
          intro _ h2
          obtain ⟨s', hfe⟩ := h2 i
          rw [hf] at hfe
          exact absurd hfe (by simp)
        · rw [if_neg hretry] at ho
          rw [Prod.mk.injEq] at ho
          obtain ⟨rfl, rfl⟩ := ho
          refine ⟨fun h pr hpr => h pr hpr, ?_, fun b hb => by simp at hb, by omega, ?_⟩
          · intro hcon
            injection hcon with h'
            exact h404 h'
          · intro _ h2
            obtain ⟨s', hfe⟩ := h2 i
            rw [hf] at hfe
            exact absurd hfe (by simp)
    | ok osha =>
      rw [hf] at ho
      cases osha with
      | none =>
        dsimp only at ho
        rw [Prod.mk.injEq] at ho
        obtain ⟨rfl, rfl⟩ := ho
        refine ⟨fun h pr hpr => h pr hpr, by simp, fun b hb => by injection hb with h; exact h.symm, by omega, ?_⟩
        intro _ h2
        obtain ⟨s', hfe⟩ := h2 i
        rw [hf] at hfe
        injection hfe with h'
        exact absurd h' (by simp)
      | some sha =>
        dsimp only at ho
        cases hd : env.del i sha with
        | ok u =>
          rw [hd] at ho
          dsimp only at ho
          rw [Prod.mk.injEq] at ho
          obtain ⟨rfl, rfl⟩ := ho
          refine ⟨?_, by simp, fun b hb => by injection hb with h; exact h.symm, ?_, ?_⟩
          · intro h pr hpr
            rcases List.mem_append.mp hpr with h' | h'
            · exact h pr h'
            · rw [List.mem_singleton] at h'
              subst h'
              exact hf
          · rw [List.length_append]
            simp only [List.length_singleton]
            omega
          · intro h1 _
            have := h1 i sha
            rw [hd] at this
            exact absurd this (by simp)
        | error s =>
          rw [hd] at ho
          dsimp only at ho
          by_cases h409 : s = 409 ∧ i < maxRetries - 1
          · rw [if_pos h409] at ho
            obtain ⟨c1, c2, c3, c4, c5⟩ :=
              ih (i + 1) (calls ++ [(i, sha)]) res cs ho (by omega) (by omega)
            have hfresh : (∀ pr ∈ calls, env.fetch pr.1 = .ok (some pr.2)) →
                ∀ pr ∈ cs, env.fetch pr.1 = .ok (some pr.2) := by
              intro h
              apply c1
              intro pr hpr
              rcases List.mem_append.mp hpr with h' | h'
              · exact h pr h'
              · rw [List.mem_singleton] at h'
                subst h'
                exact hf
            refine ⟨hfresh, c2, c3, ?_, ?_⟩
            · rw [List.length_append] at c4
              simp only [List.length_singleton] at c4
              omega
            · intro h1 h2
              obtain ⟨r1, r2⟩ := c5 h1 h2
              rw [List.length_append] at r2
              simp only [List.length_singleton] at r2
              exact ⟨r1, by omega⟩
          · rw [if_neg h409] at ho
            by_cases h404 : s = 404
            · rw [if_pos h404] at ho
              rw [Prod.mk.injEq] at ho
              obtain ⟨rfl, rfl⟩ := ho
              refine ⟨?_, by simp, fun b hb => by injection hb with h; exact h.symm, ?_, ?_⟩
              · intro h pr hpr
                rcases List.mem_append.mp hpr with h' | h'
                · exact h pr h'
                · rw [List.mem_singleton] at h'
                  subst h'
                  exact hf
              · rw [List.length_append]
                simp only [List.length_singleton]
                omega
              · intro h1 _
                have := h1 i sha
                rw [hd] at this
                injection this with h'
                omega
            · rw [if_neg h404] at ho
              rw [Prod.mk.injEq] at ho
              obtain ⟨rfl, rfl⟩ := ho
              refine ⟨?_, ?_, fun b hb => by simp at hb, ?_, ?_⟩
              · intro h pr hpr
                rcases List.mem_append.mp hpr with h' | h'
                · exact h pr h'
                · rw [List.mem_singleton] at h'
                  subst h'
                  exact hf
              · intro hcon
                injection hcon with h'
                exact h404 h'
              · rw [List.length_append]
                simp only [List.length_singleton]
                omega
              · intro h1 _
                have := h1 i sha
                rw [hd] at this
                injection this with h'
                subst h'
                have : i = maxRetries - 1 := by
                  rcases Nat.lt_or_ge i (maxRetries - 1) with h' | h'
                  · exact absurd ⟨rfl, h'⟩ h409
                  · omega
                constructor
                · rfl
                · rw [List.length_append]
                  simp only [List.length_singleton]
                  omega

/-- C3: the delete protocol refetches the current remote revision id
before each delete attempt and submits exactly that freshly fetched id
(the caller-supplied id is ignored: the outcome does not depend on it); a
404 at any point yields success, never a propagated 404; every success
records the path (no success path skips recording, for the fixed bound
3); at most 3 delete submissions are made; and under persistent staleness
(every delete answers 409 while the file keeps existing) the protocol
retries to the bound and then propagates the 409 after exactly 3
freshly-fetched submissions. -/
theorem delete_protocol_spec (env : DeleteEnv) (sha0 : String) :
    (∀ pr ∈ (deleteFileFromGitHub sha0 env 3).2,
      env.fetch pr.1 = .ok (some pr.2)) ∧
    (∀ sha1, deleteFileFromGitHub sha0 env 3 = deleteFileFromGitHub sha1 env 3) ∧
    (deleteFileFromGitHub sha0 env 3).1 ≠ .failure 404 ∧
    (∀ b, (deleteFileFromGitHub sha0 env 3).1 = .success b → b = true) ∧
    (deleteFileFromGitHub sha0 env 3).2.length ≤ 3 ∧
    ((∀ j s, env.del j s = .error 409) →
      (∀ j, ∃ s, env.fetch j = .ok (some s)) →
      (deleteFileFromGitHub sha0 env 3).1 = .failure 409 ∧
      (deleteFileFromGitHub sha0 env 3).2.length = 3) := by
  obtain ⟨c1, c2, c3, c4, c5⟩ :=
    deleteLoop_spec env 3 3 0 [] (deleteFileFromGitHub sha0 env 3).1
      (deleteFileFromGitHub sha0 env 3).2 Prod.mk.eta.symm (by omega) (by omega)
  exact ⟨c1 (by simp), fun _ => rfl, c2, c3, by simpa using c4,
    fun h1 h2 => by simpa using c5 h1 h2⟩

/-- C3 (witness): under persistent 409 staleness the protocol makes
exactly three delete submissions, each with the freshly fetched id, and
then fails with 409; and the outcome is identical for any caller-supplied
stale id. -/
theorem delete_protocol_witness :
    (deleteFileFromGitHub "stale"
        ⟨fun _ => .ok (some "fresh"), fun _ _ => .error 409⟩ 3).1 = .failure 409 ∧
    (deleteFileFromGitHub "stale"
        ⟨fun _ => .ok (some "fresh"), fun _ _ => .error 409⟩ 3).2.length = 3 ∧
    (deleteFileFromGitHub "stale"
        ⟨fun _ => .ok (some "fresh"), fun _ _ => .error 409⟩ 3) =
      (deleteFileFromGitHub "other"
        ⟨fun _ => .ok (some "fresh"), fun _ _ => .error 409⟩ 3) ∧
    (DeleteEnv.fetch ⟨fun _ => .ok (some "fresh"), fun _ _ => .error 409⟩ 0 =
      .ok (some "fresh")) := by
  obtain ⟨r1, r2⟩ :=
    (delete_protocol_spec ⟨fun _ => .ok (some "fresh"), fun _ _ => .error 409⟩
        "stale").2.2.2.2.2
      (fun _ _ => rfl) (fun _ => ⟨"fresh", rfl⟩)
  exact ⟨r1, r2,
    (delete_protocol_spec ⟨fun _ => .ok (some "fresh"), fun _ _ => .error 409⟩
        "stale").2.1 "other", rfl⟩

/-! ### C6 — push grace window -/

theorem graceAdjustEntry_augments (now : Nat) (rd rp : List (String × Nat))
    (fm : List (String × FileMetadata)) (p : String) (info : RemoteFileInfo)
    (t : Nat) (m : FileMetadata)
    (hnd : alookup rd p = none) (hrp : alookup rp p = some t)
    (ht : now - t < RECENTLY_PUSHED_GRACE_PERIOD_MS)
    (hm : alookup fm p = some m) (hsha : m.githubBlobSha ≠ "")
    (hstale : m.githubBlobSha ≠ info.sha) :
    graceAdjustEntry now rd rp fm p info =
      some { info with sha := m.githubBlobSha } := by
  have hcond : now - t < RECENTLY_PUSHED_GRACE_PERIOD_MS ∧ m.githubBlobSha ≠ "" ∧
      m.githubBlobSha ≠ info.sha := ⟨ht, hsha, hstale⟩
  unfold graceAdjustEntry
  rw [hnd]
  dsimp only
  rw [hrp, hm]
  dsimp only
  rw [if_pos hcond]
  simp

theorem alookup_graceFilterAugment_of_some (now : Nat)
    (rd rp : List (String × Nat)) (fm : List (String × FileMetadata))
    (api : List (String × RemoteFileInfo)) (p : String)
    (info info' : RemoteFileInfo)
    (hapi : alookup api p = some info)
    (hadj : graceAdjustEntry now rd rp fm p info = some info') :
    alookup (graceFilterAugment now rd rp fm api) p = some info' := by
  induction api with
  | nil => simp [alookup] at hapi
  | cons e rest ih =>
    rw [alookup_cons] at hapi
    unfold graceFilterAugment at *
    rw [List.filterMap_cons]
    by_cases he : e.1 = p
    · rw [if_pos he] at hapi
      injection hapi with h
      rw [he, h, hadj]
      simp only [Option.map_some']
      rw [alookup_cons]
      simp
    · rw [if_neg he] at hapi
      cases hadj2 : (graceAdjustEntry now rd rp fm e.1 e.2).map (fun i => (e.1, i)) with
      | none => exact ih hapi
      | some pr =>
        have hpr1 : pr.1 = e.1 := by
          cases h' : graceAdjustEntry now rd rp fm e.1 e.2 with
          | none => rw [h'] at hadj2; simp at hadj2
          | some i2 =>
            rw [h'] at hadj2
            simp only [Option.map_some'] at hadj2
            injection hadj2 with h''
            rw [← h'']
        rw [alookup_cons, hpr1, if_neg he]
        exact ih hapi

theorem detectStep_no_conflict_of_sha_eq (hash : String → String)
    (remoteStore : List (String × String))
    (remoteStates : List (String × RemoteFileInfo))
    (pd : List (String × String)) (acc : DetectAcc) (p : String)
    (lf : LocalFileState) (re : RemoteFileInfo) (m : FileMetadata)
    (hre : alookup remoteStates p = some re)
    (hm : alookup acc.fileMetadata p = some m)
    (heq : re.sha = m.githubBlobSha) :
    (detectStep hash remoteStore remoteStates pd acc (p, lf)).conflicts =
      acc.conflicts := by
  unfold detectStep
  simp only [hre, hm]
  rw [if_neg (fun hc => hc.2 heq)]
  by_cases hl : lf.checksum ≠ m.remoteContentChecksum
  · rw [if_pos hl]
  · rw [if_neg hl]

theorem deleteLocalCandidate_of_listed (now : Nat)
    (remoteStates : List (String × RemoteFileInfo))
    (fm : List (String × FileMetadata)) (rp : List (String × Nat))
    (p : String) (info : RemoteFileInfo)
    (h : alookup remoteStates p = some info) :
    deleteLocalCandidate now remoteStates fm rp p = false := by
  unfold deleteLocalCandidate
  rw [h]
  simp

/-- C6: a document pushed within the 90-second grace window whose remote
listing still reports the old revision id is reported under the
metadata's newer id instead, is not classified as a conflict by the
detector, and is not a candidate for local deletion. -/
theorem push_grace_no_conflict_no_delete
    (hash : String → String) (remoteStore : List (String × String))
    (now t : Nat) (rd rp : List (String × Nat))
    (fm : List (String × FileMetadata)) (api : List (String × RemoteFileInfo))
    (pd : List (String × String)) (acc : DetectAcc)
    (p : String) (lf : LocalFileState) (oldInfo : RemoteFileInfo)
    (m : FileMetadata)
    (hnd : alookup rd p = none)
    (hrp : alookup rp p = some t)
    (ht : now - t < RECENTLY_PUSHED_GRACE_PERIOD_MS)
    (hm : alookup fm p = some m)
    (hsha : m.githubBlobSha ≠ "")
    (hstale : m.githubBlobSha ≠ oldInfo.sha)
    (hapi : alookup api p = some oldInfo)
    (hacc : acc.fileMetadata = fm) :
    alookup (graceFilterAugment now rd rp fm api) p =
      some { oldInfo with sha := m.githubBlobSha } ∧
    (detectStep hash remoteStore (graceFilterAugment now rd rp fm api) pd acc
      (p, lf)).conflicts = acc.conflicts ∧
    deleteLocalCandidate now (graceFilterAugment now rd rp fm api) fm rp p =
      false := by
  have hlook : alookup (graceFilterAugment now rd rp fm api) p =
      some { oldInfo with sha := m.githubBlobSha } :=
    alookup_graceFilterAugment_of_some now rd rp fm api p oldInfo _
      hapi (graceAdjustEntry_augments now rd rp fm p oldInfo t m hnd hrp ht hm
        hsha hstale)
  refine ⟨hlook, ?_, deleteLocalCandidate_of_listed now _ fm rp p _ hlook⟩
  exact detectStep_no_conflict_of_sha_eq hash remoteStore _ pd acc p lf _ m
    hlook (hacc ▸ hm) rfl

/-- C6 (witness): the grace behaviour at a concrete recently-pushed
file whose listing still reports the old revision id. -/
theorem push_grace_witness :
    alookup (graceFilterAugment 1000 [] [("a.md", 950)]
      [("a.md", ⟨"a.md", "new", 0, "h", "h", false⟩)]
      [("a.md", ⟨"a.md", "old"⟩)]) "a.md" = some ⟨"a.md", "new"⟩ ∧
    (detectStep (fun s => s) [("a.md", "C")]
      (graceFilterAugment 1000 [] [("a.md", 950)]
        [("a.md", ⟨"a.md", "new", 0, "h", "h", false⟩)]
        [("a.md", ⟨"a.md", "old"⟩)]) []
      ⟨[], [("a.md", ⟨"a.md", "new", 0, "h", "h", false⟩)], []⟩
      ("a.md", ⟨"C", "h"⟩)).conflicts = [] ∧
    deleteLocalCandidate 1000
      (graceFilterAugment 1000 [] [("a.md", 950)]
        [("a.md", ⟨"a.md", "new", 0, "h", "h", false⟩)]
        [("a.md", ⟨"a.md", "old"⟩)])
      [("a.md", ⟨"a.md", "new", 0, "h", "h", false⟩)] [("a.md", 950)] "a.md" =
      false := by
  obtain ⟨h1, h2, h3⟩ := push_grace_no_conflict_no_delete (fun s => s)
    [("a.md", "C")] 1000 950 [] [("a.md", 950)]
    [("a.md", ⟨"a.md", "new", 0, "h", "h", false⟩)]
    [("a.md", ⟨"a.md", "old"⟩)] []
    ⟨[], [("a.md", ⟨"a.md", "new", 0, "h", "h", false⟩)], []⟩
    "a.md" ⟨"C", "h"⟩ ⟨"a.md", "old"⟩ ⟨"a.md", "new", 0, "h", "h", false⟩
    (by decide) (by decide) (by decide) (by decide) (by decide) (by decide)
    (by decide) (by decide)
  exact ⟨h1, h2, h3⟩

/-! ### C7 — idempotence fails with a non-empty sync sub-path

With `syncPath = "notes"`, a pre-existing remote file `notes/y.md` is
listed and keyed by its local image `getLocalPath "notes" "notes/y.md" =
"y.md"`, but `shouldSyncFile` only tracks local paths under `notes/`, so
the pulled file is invisible to the next run's local scan and is pulled
again on every run.  (Local files under `notes/` map to remote
`notes/notes/...`, so files the engine itself pushed round-trip fine;
the failing case is any repository that already has Markdown files
directly under the sub-path.) -/

/-- C7 (failing evaluation): starting from an empty vault and a remote
store holding `notes/y.md`, a run with sub-path `notes` pulls once and
completes; the immediately following run, with no intervening local or
remote change, pulls the same file again — its counts are not all zero,
so synchronization is not idempotent. -/
theorem sync_second_run_not_zero :
    (syncRun (fun s => s) (fun s => String.push s '#') "notes" 0
      ResolutionSetting.keepLocal (fun _ => ConflictChoice.localKeep)
      (fun _ => ConflictChoice.localKeep)
      ⟨[], [("notes/y.md", "B")], ⟨[], [], [], [], []⟩⟩).2.pulledCount = 1 ∧
    (syncRun (fun s => s) (fun s => String.push s '#') "notes" 0
      ResolutionSetting.keepLocal (fun _ => ConflictChoice.localKeep)
      (fun _ => ConflictChoice.localKeep)
      (syncRun (fun s => s) (fun s => String.push s '#') "notes" 0
        ResolutionSetting.keepLocal (fun _ => ConflictChoice.localKeep)
        (fun _ => ConflictChoice.localKeep)
        ⟨[], [("notes/y.md", "B")], ⟨[], [], [], [], []⟩⟩).1).2.pulledCount = 1 ∧
    (syncRun (fun s => s) (fun s => String.push s '#') "notes" 0
      ResolutionSetting.keepLocal (fun _ => ConflictChoice.localKeep)
      (fun _ => ConflictChoice.localKeep)
      (syncRun (fun s => s) (fun s => String.push s '#') "notes" 0
        ResolutionSetting.keepLocal (fun _ => ConflictChoice.localKeep)
        (fun _ => ConflictChoice.localKeep)
        ⟨[], [("notes/y.md", "B")], ⟨[], [], [], [], []⟩⟩).1).2 ≠
      Counts.mk 0 0 0 0 := by
  refine ⟨by decide, by decide, by decide⟩

/-! ### C10 — scope of tracking -/

/-- C10 (counterexample): the engine does pull a file whose local path
lies outside the configured sub-path: pulling remote `notes/y.md` with
sub-path `notes` creates local `y.md`, which `shouldSyncFile` rejects. -/
theorem pull_lands_outside_syncPath :
    (syncRun (fun s => s) (fun s => String.push s '#') "notes" 0
      ResolutionSetting.keepLocal (fun _ => ConflictChoice.localKeep)
      (fun _ => ConflictChoice.localKeep)
      ⟨[], [("notes/y.md", "B")], ⟨[], [], [], [], []⟩⟩).1.localStore =
      [("y.md", "B")] ∧
    shouldSyncFile "notes" "y.md" (basename "y.md") = false := by
  refine ⟨by decide, by decide⟩

theorem mem_of_alookup_eq_some {α : Type} (m : List (String × α)) (k : String)
    (v : α) (h : alookup m k = some v) : (k, v) ∈ m := by
  induction m with
  | nil => simp [alookup] at h
  | cons e rest ih =>
    rw [alookup_cons] at h
    by_cases he : e.1 = k
    · rw [if_pos he] at h
      injection h with h'
      have he2 : e = (k, v) := Prod.ext he h'
      rw [← he2]
      exact List.mem_cons_self e rest
    · rw [if_neg he] at h
      right
      exact ih h

theorem getLocalFileStates_tracked (hash : String → String) (sp : String)
    (ls : List (String × String)) :
    ∀ pr ∈ getLocalFileStates hash sp ls,
      shouldSyncFile sp pr.1 (basename pr.1) = true := by
  intro pr hpr
  unfold getLocalFileStates at hpr
  obtain ⟨e, he, rfl⟩ := List.mem_map.mp hpr
  exact (List.mem_filter.mp he).2

theorem graceAdjustEntry_path (now : Nat) (rd rp : List (String × Nat))
    (fm : List (String × FileMetadata)) (p : String) (info info' : RemoteFileInfo)
    (h : graceAdjustEntry now rd rp fm p info = some info') :
    info'.path = info.path := by
  unfold graceAdjustEntry at h
  dsimp only at h
  repeat' split at h
  all_goals
    first
    | (injection h with h'; rw [← h'])
    | exact Option.noConfusion h

theorem mem_graceFilterAugment (now : Nat) (rd rp : List (String × Nat))
    (fm : List (String × FileMetadata)) (api : List (String × RemoteFileInfo))
    (pr : String × RemoteFileInfo) (h : pr ∈ graceFilterAugment now rd rp fm api) :
    ∃ pr0 ∈ api, pr.1 = pr0.1 ∧ pr.2.path = pr0.2.path := by
  unfold graceFilterAugment at h
  obtain ⟨e, he, hm⟩ := List.mem_filterMap.mp h
  cases hadj : graceAdjustEntry now rd rp fm e.1 e.2 with
  | none =>
    rw [hadj] at hm
    simp at hm
  | some i2 =>
    rw [hadj] at hm
    simp only [Option.map_some'] at hm
    injection hm with hm'
    refine ⟨e, he, ?_, ?_⟩
    · rw [← hm']
    · rw [← hm']
      exact graceAdjustEntry_path now rd rp fm e.1 e.2 i2 hadj

theorem mem_remoteListing (ghHash : String → String) (sp : String)
    (rs : List (String × String)) (pr : String × RemoteFileInfo)
    (h : pr ∈ remoteListing ghHash sp rs) :
    remoteItemListed sp pr.2.path = true := by
  unfold remoteListing at h
  obtain ⟨e, he, rfl⟩ := List.mem_map.mp h
  exact (List.mem_filter.mp he).2

/-- C10 (amended): `shouldSyncFile` and `shouldSyncPath` accept only
Markdown names (`.md` / `.markdown`), and with a non-empty sub-path only
paths strictly under it; consequently every pushed path and every locally
deleted path is a tracked file (Markdown, under the sub-path), and every
pulled remote path is a Markdown file under the remote sub-path — but a
pull may create a local file whose local path lies outside the sub-path
(the counterexample), so the original "never pulls a file outside the
configured sub-path" holds for the remote side only. -/
theorem sync_scope_filter (hash ghHash : String → String) (sp : String)
    (now : Nat) (setting : ResolutionSetting) (askPush : String → ConflictChoice)
    (ls : List (String × String)) (w : World) (fp name q : String) :
    (shouldSyncFile sp fp name = true →
      (strEndsWith name ".md" || strEndsWith name ".markdown") = true ∧
      (stripSlashes sp ≠ "" →
        strStartsWith (stripLeadingSlash fp) (stripSlashes sp ++ "/") = true)) ∧
    (shouldSyncPath sp q = true →
      (strEndsWith q ".md" || strEndsWith q ".markdown") = true ∧
      (stripSlashes sp ≠ "" →
        strStartsWith (stripLeadingSlash q) (stripSlashes sp ++ "/") = true)) ∧
    (∀ p ∈ (performSync hash ghHash sp now setting askPush
        (getLocalFileStates hash sp ls) w).pushedPaths,
      shouldSyncFile sp p (basename p) = true) ∧
    (∀ p ∈ (performSync hash ghHash sp now setting askPush
        (getLocalFileStates hash sp ls) w).deletedPaths,
      shouldSyncFile sp p (basename p) = true) ∧
    (∀ info ∈ (performSync hash ghHash sp now setting askPush
        (getLocalFileStates hash sp ls) w).pulledRemote,
      remoteItemListed sp info.path = true) := by
  refine ⟨?_, ?_, ?_, ?_, ?_⟩
  · intro h
    unfold shouldSyncFile at h
    by_cases hsp : stripSlashes sp = ""
    · rw [if_pos hsp] at h
      exact ⟨h, fun hc => absurd hsp hc⟩
    · rw [if_neg hsp] at h
      rw [Bool.and_eq_true] at h
      exact ⟨h.2, fun _ => h.1⟩
  · intro h
    unfold shouldSyncPath at h
    by_cases hsp : stripSlashes sp = ""
    · rw [if_pos hsp] at h
      exact ⟨h, fun hc => absurd hsp hc⟩
    · rw [if_neg hsp] at h
      rw [Bool.and_eq_true] at h
      exact ⟨h.2, fun _ => h.1⟩
  · intro p hp
    dsimp only [performSync] at hp
    have hmem := (List.mem_filter.mp hp).2
    unfold amem at hmem
    rw [Option.isSome_iff_exists] at hmem
    obtain ⟨v, hv⟩ := hmem
    have := mem_of_alookup_eq_some _ _ _ hv
    exact getLocalFileStates_tracked hash sp ls (p, v) this
  · intro p hp
    dsimp only [performSync] at hp
    obtain ⟨e, he, rfl⟩ := List.mem_map.mp hp
    have := (List.mem_filter.mp he).1
    exact getLocalFileStates_tracked hash sp ls e this
  · intro info hp
    dsimp only [performSync] at hp
    obtain ⟨e, he, rfl⟩ := List.mem_map.mp hp
    have he1 := (List.mem_filter.mp he).1
    unfold getRemoteFileStates at he1
    obtain ⟨pr0, hpr0, _, hpath⟩ := mem_graceFilterAugment _ _ _ _ _ _ he1
    rw [hpath]
    exact mem_remoteListing _ _ _ _ hpr0

/-- C10 (witness): the scope filter evaluated at concrete inputs — a
tracked file under the sub-path, and a pull of a root-level remote
Markdown file. -/
theorem sync_scope_filter_witness :
    ((strEndsWith "a.md" ".md" || strEndsWith "a.md" ".markdown") = true ∧
      (stripSlashes "notes" ≠ "" →
        strStartsWith (stripLeadingSlash "notes/a.md")
          (stripSlashes "notes" ++ "/") = true)) ∧
    remoteItemListed "" "z.md" = true := by
  constructor
  · exact (sync_scope_filter (fun s => s) (fun s => String.push s '#') "notes" 0
      ResolutionSetting.keepLocal (fun _ => ConflictChoice.localKeep) []
      ⟨[], [], ⟨[], [], [], [], []⟩⟩ "notes/a.md" "a.md" "x").1 (by decide)
  · exact (sync_scope_filter (fun s => s) (fun s => String.push s '#') "" 0
      ResolutionSetting.keepLocal (fun _ => ConflictChoice.localKeep) []
      ⟨[], [("z.md", "Z")], ⟨[], [], [], [], []⟩⟩ "a" "a" "x").2.2.2.2
      ⟨"z.md", String.push "Z" '#'⟩ (by decide)

/-! ### Settled states are fixed points of the orchestrator -/

theorem alookup_of_mem_nodup {α : Type} (m : List (String × α))
    (hn : (m.map Prod.fst).Nodup) (pr : String × α) (h : pr ∈ m) :
    alookup m pr.1 = some pr.2 := by
  induction m with
  | nil => simp at h
  | cons e rest ih =>
    rw [List.map_cons, List.nodup_cons] at hn
    rcases List.mem_cons.mp h with rfl | h'
    · rw [alookup_cons, if_pos rfl]
    · rw [alookup_cons]
      by_cases he : e.1 = pr.1
      · exfalso
        apply hn.1
        rw [he]
        exact List.mem_map.mpr ⟨pr, h', rfl⟩
      · rw [if_neg he]
        exact ih hn.2 h'

theorem alookup_getLocalFileStates (hash : String → String) (sp : String)
    (ls : List (String × String)) (p : String)
    (htr : shouldSyncFile sp p (basename p) = true) :
    alookup (getLocalFileStates hash sp ls) p =
      (alookup ls p).map (fun c => (⟨c, hash c⟩ : LocalFileState)) := by
  unfold getLocalFileStates
  induction ls with
  | nil => rfl
  | cons e rest ih =>
    rw [List.filter_cons]
    by_cases he : e.1 = p
    · have hf : shouldSyncFile sp e.1 (basename e.1) = true := by
        rw [he]
        exact htr
      simp [hf, he, htr, alookup_cons]
    · by_cases hf : shouldSyncFile sp e.1 (basename e.1) = true
      · simpa [hf, he, alookup_cons] using ih
      · rw [Bool.not_eq_true] at hf
        simpa [hf, he, alookup_cons] using ih

theorem mem_getLocalFileStates (hash : String → String) (sp : String)
    (ls : List (String × String)) (pr : String × LocalFileState)
    (h : pr ∈ getLocalFileStates hash sp ls) :
    ∃ e ∈ ls, pr = (e.1, ⟨e.2, hash e.2⟩) ∧
      shouldSyncFile sp e.1 (basename e.1) = true := by
  unfold getLocalFileStates at h
  obtain ⟨e, he, rfl⟩ := List.mem_map.mp h
  exact ⟨e, (List.mem_filter.mp he).1, rfl, (List.mem_filter.mp he).2⟩

theorem alookup_filter_none {α : Type} (f : String × α → Bool)
    (m : List (String × α)) (p : String) (h : alookup m p = none) :
    alookup (m.filter f) p = none := by
  induction m with
  | nil => rfl
  | cons e rest ih =>
    rw [alookup_cons] at h
    by_cases he : e.1 = p
    · rw [if_pos he] at h
      exact absurd h (by simp)
    · rw [if_neg he] at h
      rw [List.filter_cons]
      by_cases hf : f e = true
      · simpa [hf, alookup_cons, he] using ih h
      · rw [Bool.not_eq_true] at hf
        simpa [hf] using ih h

theorem alookup_purgeCache_none (now window : Nat) (c : List (String × Nat))
    (p : String) (h : alookup c p = none) :
    alookup (purgeCache now window c) p = none :=
  alookup_filter_none _ c p h

theorem alookup_purgeCache_keep (now window : Nat) (c : List (String × Nat))
    (p : String) (t : Nat) (h : alookup c p = some t)
    (ht : ¬now - t > window) :
    alookup (purgeCache now window c) p = some t := by
  induction c with
  | nil => simp [alookup] at h
  | cons e rest ih =>
    rw [alookup_cons] at h
    unfold purgeCache at *
    rw [List.filter_cons]
    by_cases he : e.1 = p
    · rw [if_pos he] at h
      injection h with h'
      subst h'
      simp only [show (!decide (now - e.2 > window)) = true by simp [ht], ite_true]
      rw [alookup_cons, if_pos he]
    · rw [if_neg he] at h
      by_cases hd : (!decide (now - e.2 > window)) = true
      · rw [hd]
        simp only [ite_true, alookup_cons]
        rw [if_neg he]
        exact ih h
      · rw [Bool.not_eq_true] at hd
        rw [hd]
        simp only [Bool.false_eq_true, ite_false]
        exact ih h

theorem alookup_purgeCache_drop (now window : Nat) (c : List (String × Nat))
    (hn : (c.map Prod.fst).Nodup) (p : String) (t : Nat)
    (h : alookup c p = some t) (ht : now - t > window) :
    alookup (purgeCache now window c) p = none := by
  induction c with
  | nil => simp [alookup] at h
  | cons e rest ih =>
    rw [List.map_cons, List.nodup_cons] at hn
    rw [alookup_cons] at h
    unfold purgeCache at *
    rw [List.filter_cons]
    by_cases he : e.1 = p
    · rw [if_pos he] at h
      injection h with h'
      subst h'
      simp only [show (!decide (now - e.2 > window)) = false by simp [ht],
        Bool.false_eq_true, ite_false]
      apply alookup_filter_none
      cases hl : alookup rest p with
      | none => rfl
      | some v =>
        exact absurd (List.mem_map.mpr
          ⟨(p, v), mem_of_alookup_eq_some rest p v hl, rfl⟩) (he ▸ hn.1)
    · rw [if_neg he] at h
      by_cases hd : (!decide (now - e.2 > window)) = true
      · rw [hd]
        simp only [ite_true, alookup_cons]
        rw [if_neg he]
        exact ih hn.2 h
      · rw [Bool.not_eq_true] at hd
        rw [hd]
        simp only [Bool.false_eq_true, ite_false]
        exact ih hn.2 h

theorem foldl_fixed {α β : Type} (f : α → β → α) (a : α) (l : List β)
    (h : ∀ x ∈ l, f a x = a) : l.foldl f a = a := by
  induction l with
  | nil => rfl
  | cons x rest ih =>
    rw [List.foldl_cons, h x (List.mem_cons_self x rest)]
    exact ih (fun y hy => h y (List.mem_cons_of_mem x hy))

theorem purgeCache_idem (now w : Nat) (c : List (String × Nat)) :
    purgeCache now w (purgeCache now w c) = purgeCache now w c := by
  unfold purgeCache
  rw [List.filter_filter]
  apply List.filter_congr
  intro a _
  simp

theorem recentlyPushedWithin_purge (now : Nat) (rp : List (String × Nat))
    (p : String) (h : recentlyPushedWithin now rp p = true) :
    recentlyPushedWithin now
      (purgeCache now RECENTLY_PUSHED_GRACE_PERIOD_MS rp) p = true := by
  unfold recentlyPushedWithin at *
  cases hc : alookup rp p with
  | none =>
    rw [hc] at h
    exact absurd h (by simp)
  | some t =>
    rw [hc] at h
    dsimp only at h
    have ht : now - t < RECENTLY_PUSHED_GRACE_PERIOD_MS := by simpa using h
    rw [alookup_purgeCache_keep now RECENTLY_PUSHED_GRACE_PERIOD_MS rp p t hc
      (by omega)]
    simpa using ht

theorem pushAugment_purge (now : Nat) (rp : List (String × Nat))
    (hnp : (rp.map Prod.fst).Nodup) (fm : List (String × FileMetadata))
    (p : String) (info : RemoteFileInfo) :
    (match alookup (purgeCache now RECENTLY_PUSHED_GRACE_PERIOD_MS rp) p,
        alookup fm p with
     | some t, some m =>
       if now - t < RECENTLY_PUSHED_GRACE_PERIOD_MS ∧ m.githubBlobSha ≠ "" ∧
           m.githubBlobSha ≠ info.sha then
         some { info with sha := m.githubBlobSha }
       else some info
     | _, _ => some info) =
    (match alookup rp p, alookup fm p with
     | some t, some m =>
       if now - t < RECENTLY_PUSHED_GRACE_PERIOD_MS ∧ m.githubBlobSha ≠ "" ∧
           m.githubBlobSha ≠ info.sha then
         some { info with sha := m.githubBlobSha }
       else some info
     | _, _ => some info) := by
  cases hrpL : alookup rp p with
  | none =>
    rw [alookup_purgeCache_none now RECENTLY_PUSHED_GRACE_PERIOD_MS rp p hrpL]
  | some t =>
    by_cases ht : now - t > RECENTLY_PUSHED_GRACE_PERIOD_MS
    · rw [alookup_purgeCache_drop now RECENTLY_PUSHED_GRACE_PERIOD_MS rp hnp
        p t hrpL ht]
      cases hfm : alookup fm p with
      | none => rfl
      | some m =>
        dsimp only
        rw [if_neg (fun hc => absurd hc.1 (by omega))]
    · rw [alookup_purgeCache_keep now RECENTLY_PUSHED_GRACE_PERIOD_MS rp p t
        hrpL ht]

theorem graceAdjustEntry_purge (now : Nat) (rd rp : List (String × Nat))
    (hnd : (rd.map Prod.fst).Nodup) (hnp : (rp.map Prod.fst).Nodup)
    (fm : List (String × FileMetadata)) (p : String) (info : RemoteFileInfo) :
    graceAdjustEntry now (purgeCache now RECENTLY_DELETED_GRACE_PERIOD_MS rd)
      (purgeCache now RECENTLY_PUSHED_GRACE_PERIOD_MS rp) fm p info =
    graceAdjustEntry now rd rp fm p info := by
  unfold graceAdjustEntry
  cases hrdL : alookup rd p with
  | none =>
    rw [alookup_purgeCache_none now RECENTLY_DELETED_GRACE_PERIOD_MS rd p hrdL]
    dsimp only
    exact pushAugment_purge now rp hnp fm p info
  | some t =>
    by_cases ht : now - t > RECENTLY_DELETED_GRACE_PERIOD_MS
    · rw [alookup_purgeCache_drop now RECENTLY_DELETED_GRACE_PERIOD_MS rd hnd
        p t hrdL ht]
      dsimp only
      rw [decide_eq_false (by omega : ¬now - t < RECENTLY_DELETED_GRACE_PERIOD_MS)]
      exact pushAugment_purge now rp hnp fm p info
    · rw [alookup_purgeCache_keep now RECENTLY_DELETED_GRACE_PERIOD_MS rd p t
        hrdL ht]
      dsimp only
      by_cases hlt : now - t < RECENTLY_DELETED_GRACE_PERIOD_MS
      · rw [decide_eq_true hlt]
        rfl
      · rw [decide_eq_false hlt]
        exact pushAugment_purge now rp hnp fm p info

theorem graceFilterAugment_purge (now : Nat) (rd rp : List (String × Nat))
    (hnd : (rd.map Prod.fst).Nodup) (hnp : (rp.map Prod.fst).Nodup)
    (fm : List (String × FileMetadata))
    (api : List (String × RemoteFileInfo)) :
    graceFilterAugment now (purgeCache now RECENTLY_DELETED_GRACE_PERIOD_MS rd)
      (purgeCache now RECENTLY_PUSHED_GRACE_PERIOD_MS rp) fm api =
    graceFilterAugment now rd rp fm api := by
  unfold graceFilterAugment
  induction api with
  | nil => rfl
  | cons e rest ih =>
    rw [List.filterMap_cons, List.filterMap_cons,
      graceAdjustEntry_purge now rd rp hnd hnp fm e.1 e.2, ih]

theorem detectStep_settled (hash : String → String)
    (remoteStore : List (String × String))
    (S : List (String × RemoteFileInfo)) (fm : List (String × FileMetadata))
    (p : String) (lf : LocalFileState)
    (hsome : ∀ re, alookup S p = some re →
      ∃ m, alookup fm p = some m ∧ re.sha = m.githubBlobSha ∧
        lf.checksum = m.remoteContentChecksum)
    (hnone : alookup S p = none →
      ∃ m, alookup fm p = some m ∧ m.githubBlobSha ≠ "") :
    detectStep hash remoteStore S [] ⟨[], fm, []⟩ (p, lf) = ⟨[], fm, []⟩ := by
  unfold detectStep
  dsimp only
  cases hS : alookup S p with
  | none =>
    obtain ⟨m, hm, hne⟩ := hnone hS
    simp [hm, hne, amem, alookup]
  | some re =>
    obtain ⟨m, hm, hsha, hchk⟩ := hsome re hS
    simp only [hm]
    rw [if_neg (fun hc => hc.1 hchk)]
    rw [if_neg (fun hc => hc hchk)]
    rfl

theorem detectConflicts_settled (hash : String → String)
    (remoteStore : List (String × String))
    (S : List (String × RemoteFileInfo)) (fm : List (String × FileMetadata))
    (localFiles : List (String × LocalFileState))
    (h : ∀ e ∈ localFiles,
      detectStep hash remoteStore S [] ⟨[], fm, []⟩ e = ⟨[], fm, []⟩) :
    detectConflicts hash remoteStore S [] localFiles [] fm = ⟨[], fm, []⟩ := by
  unfold detectConflicts
  exact foldl_fixed _ _ _ h

theorem deleteLocalCandidate_of_pushed (now : Nat)
    (remoteStates : List (String × RemoteFileInfo))
    (fm : List (String × FileMetadata)) (rp : List (String × Nat))
    (p : String) (h : recentlyPushedWithin now rp p = true) :
    deleteLocalCandidate now remoteStates fm rp p = false := by
  unfold deleteLocalCandidate
  simp [h]

theorem performSync_counts_zero (hash ghHash : String → String) (sp : String)
    (now : Nat) (setting : ResolutionSetting) (askPush : String → ConflictChoice)
    (localFiles : List (String × LocalFileState)) (w : World)
    (hpf : w.sync.pendingFiles = [])
    (hpull : ∀ e ∈ (getRemoteFileStates ghHash sp now w.remoteStore
        w.sync.recentlyDeleted w.sync.recentlyPushed w.sync.fileMetadata).states,
      ∃ c m, alookup localFiles e.1 = some c ∧
        alookup w.sync.fileMetadata e.1 = some m ∧ e.2.sha = m.githubBlobSha)
    (hdel : ∀ e ∈ localFiles,
      (∃ info, alookup (getRemoteFileStates ghHash sp now w.remoteStore
          w.sync.recentlyDeleted w.sync.recentlyPushed
          w.sync.fileMetadata).states e.1 = some info) ∨
        recentlyPushedWithin now
          (purgeCache now RECENTLY_PUSHED_GRACE_PERIOD_MS
            w.sync.recentlyPushed) e.1 = true) :
    (performSync hash ghHash sp now setting askPush localFiles w).pushedCount
        = 0 ∧
    (performSync hash ghHash sp now setting askPush localFiles w).pulledCount
        = 0 ∧
    SyncOps.deletedLocallyCount
      (performSync hash ghHash sp now setting askPush localFiles w) = 0 := by
  unfold performSync
  simp only [hpf, List.filter_nil, List.foldl_nil]
  dsimp only [getRemoteFileStates] at hpull hdel ⊢
  refine ⟨trivial, ?_, ?_⟩
  · rw [List.length_eq_zero, List.filter_eq_nil_iff]
    intro e he
    obtain ⟨c, m, hc, hm, hsha⟩ := hpull e he
    simp [hc, hm, hsha]
  · rw [List.length_eq_zero, List.filter_eq_nil_iff]
    intro e he
    rcases hdel e he with ⟨info, hinfo⟩ | hpush
    · simp [deleteLocalCandidate_of_listed now _ _ _ _ _ hinfo]
    · simp [deleteLocalCandidate_of_pushed now _ _ _ _ hpush]

theorem processPendingDeletions_nil (sp : String) (now : Nat) (w : World)
    (h : w.sync.pendingDeletions = []) :
    processPendingDeletions sp now w = (w, 0) := by
  unfold processPendingDeletions
  rw [h]
  dsimp only [List.foldl_nil, List.length_nil]
  rw [← h]

/-- A settled world — every queue empty, every listed remote file tracked
locally with matching revision id and checksum, every tracked local file
missing from the listing still remotely associated and inside the push
grace window — is a fixed point of the orchestrator: a run over it
reports zero pushed, pulled, locally deleted and remotely deleted files.
This is the situation the sync-scope mismatch breaks for a non-empty
sync sub-path: the pulled file lands outside the tracked scope, so the
world after a pull of such a file never satisfies the third clause, and
the run is repeated forever. -/
theorem settled_run_zero (hash ghHash : String → String) (syncPath : String)
    (now : Nat) (setting : ResolutionSetting)
    (askDetect askPush : String → ConflictChoice) (w : World)
    (hls : (w.localStore.map Prod.fst).Nodup)
    (hrd : (w.sync.recentlyDeleted.map Prod.fst).Nodup)
    (hrp : (w.sync.recentlyPushed.map Prod.fst).Nodup)
    (hs : Settled hash ghHash syncPath now w) :
    (syncRun hash ghHash syncPath now setting askDetect askPush w).2 =
      ⟨0, 0, 0, 0⟩ := by
  obtain ⟨hpd, hpf, hlisted, hmissing⟩ := hs
  have hloc : ∀ e ∈ getLocalFileStates hash syncPath w.localStore,
      alookup w.localStore e.1 = some e.2.content ∧
      e.2.checksum = hash e.2.content ∧
      shouldSyncFile syncPath e.1 (basename e.1) = true := by
    intro e he
    obtain ⟨q, hq, hqe, htr⟩ :=
      mem_getLocalFileStates hash syncPath w.localStore e he
    rw [hqe]
    exact ⟨alookup_of_mem_nodup w.localStore hls q hq, rfl, htr⟩
  have hstep : ∀ e ∈ getLocalFileStates hash syncPath w.localStore,
      detectStep hash w.remoteStore
        (graceFilterAugment now w.sync.recentlyDeleted w.sync.recentlyPushed
          w.sync.fileMetadata (remoteListing ghHash syncPath w.remoteStore)) []
        ⟨[], w.sync.fileMetadata, []⟩ e = ⟨[], w.sync.fileMetadata, []⟩ := by
    intro e he
    obtain ⟨hlk, hchk, htr⟩ := hloc e he
    refine detectStep_settled hash w.remoteStore _ _ e.1 e.2 ?_ ?_
    · intro re hre
      obtain ⟨c, m, hc, _, hm, hsha, hh⟩ :=
        hlisted (e.1, re) (mem_of_alookup_eq_some _ _ _ hre)
      have hce : c = e.2.content := by
        rw [hc] at hlk
        injection hlk with h'
      refine ⟨m, hm, hsha, ?_⟩
      rw [hchk, ← hce]
      exact hh
    · intro hnone
      obtain ⟨m, hm, hne, _⟩ := hmissing e.1 e.2.content hlk htr hnone
      exact ⟨m, hm, hne⟩
  have hpull4 : ∀ e ∈ (getRemoteFileStates ghHash syncPath now w.remoteStore
      (purgeCache now RECENTLY_DELETED_GRACE_PERIOD_MS w.sync.recentlyDeleted)
      (purgeCache now RECENTLY_PUSHED_GRACE_PERIOD_MS w.sync.recentlyPushed)
      w.sync.fileMetadata).states,
      ∃ c m, alookup (getLocalFileStates hash syncPath w.localStore) e.1 =
          some c ∧
        alookup w.sync.fileMetadata e.1 = some m ∧ e.2.sha = m.githubBlobSha := by
    intro e he
    dsimp only [getRemoteFileStates] at he
    rw [graceFilterAugment_purge now w.sync.recentlyDeleted w.sync.recentlyPushed
      hrd hrp w.sync.fileMetadata
      (remoteListing ghHash syncPath w.remoteStore)] at he
    obtain ⟨c, m, hc, htr, hm, hsha, _⟩ := hlisted e he
    refine ⟨⟨c, hash c⟩, m, ?_, hm, hsha⟩
    rw [alookup_getLocalFileStates hash syncPath w.localStore e.1 htr, hc]
    rfl
  have hdel4 : ∀ e ∈ getLocalFileStates hash syncPath w.localStore,
      (∃ info, alookup (getRemoteFileStates ghHash syncPath now w.remoteStore
          (purgeCache now RECENTLY_DELETED_GRACE_PERIOD_MS
            w.sync.recentlyDeleted)
          (purgeCache now RECENTLY_PUSHED_GRACE_PERIOD_MS
            w.sync.recentlyPushed)
          w.sync.fileMetadata).states e.1 = some info) ∨
        recentlyPushedWithin now
          (purgeCache now RECENTLY_PUSHED_GRACE_PERIOD_MS
            (purgeCache now RECENTLY_PUSHED_GRACE_PERIOD_MS
              w.sync.recentlyPushed)) e.1 = true := by
    intro e he
    obtain ⟨hlk, _, htr⟩ := hloc e he
    cases halk : alookup (graceFilterAugment now w.sync.recentlyDeleted
        w.sync.recentlyPushed w.sync.fileMetadata
        (remoteListing ghHash syncPath w.remoteStore)) e.1 with
    | some info =>
      left
      refine ⟨info, ?_⟩
      dsimp only [getRemoteFileStates]
      rw [graceFilterAugment_purge now w.sync.recentlyDeleted
        w.sync.recentlyPushed hrd hrp w.sync.fileMetadata
        (remoteListing ghHash syncPath w.remoteStore)]
      exact halk
    | none =>
      right
      obtain ⟨m, hm, hne, hrpw⟩ := hmissing e.1 e.2.content hlk htr halk
      rw [purgeCache_idem]
      exact recentlyPushedWithin_purge now w.sync.recentlyPushed e.1 hrpw
  obtain ⟨h1, h2, h3⟩ := performSync_counts_zero hash ghHash syncPath now
    setting askPush (getLocalFileStates hash syncPath w.localStore)
    ⟨w.localStore, w.remoteStore,
      ⟨[], w.sync.fileMetadata, [],
        purgeCache now RECENTLY_PUSHED_GRACE_PERIOD_MS w.sync.recentlyPushed,
        purgeCache now RECENTLY_DELETED_GRACE_PERIOD_MS
          w.sync.recentlyDeleted⟩⟩
    rfl hpull4 hdel4
  unfold syncRun
  rw [processPendingDeletions_nil syncPath now w hpd]
  dsimp only
  simp only [getRemoteFileStates]
  rw [hpd, hpf]
  rw [detectConflicts_settled hash w.remoteStore _ _ _ hstep]
  dsimp only
  simp only [resolveConflicts, List.foldl_nil]
  rw [h1, h2, h3]

end SyncMate
